import Mathlib

/-!
Verification development for the bump-android CI step (`main.go`).

The program's text processing is embedded over `List Char`:
strings of the Go program become `List Char`, the two regular expressions
`versionName\s+"([0-9.]+)"` and `versionCode\s+(\d+)` become explicit
matchers (`matchAtName`, `matchAtCode`), `regexp.FindStringSubmatch`
becomes `findFirst` (leftmost match; the character classes of the two
patterns are followed by characters outside the class, so greedy maximal
munch coincides with the engine's semantics), and `ReplaceAllString`
becomes `replaceAll`.  The effectful `main` is embedded as a trace
function `run` over an explicit `World` describing the outcomes of the
external commands.
-/

set_option maxHeartbeats 1000000

namespace BumpAndroid

/-- Result of matching one of the two patterns at the start of a string:
the matched substring, the captured group, and the remainder. -/
structure MRes where
  matched : List Char
  capture : List Char
  rest : List Char
deriving Repr, DecidableEq, Inhabited

/-- Go's regexp class `\s` (RE2: `[\t\n\f\r ]`). -/
def isWS (c : Char) : Bool :=
  c = ' ' || c = '\t' || c = '\n' || c = '\x0c' || c = '\r'

/-- Go's regexp class `\d` = `[0-9]`. -/
def isDigit (c : Char) : Bool :=
  '0' ≤ c && c ≤ '9'

/-- The class `[0-9.]` of the versionName value. -/
def isNameChar (c : Char) : Bool :=
  isDigit c || c = '.'

/-- The literal `versionName` of the first pattern. -/
def litName : List Char :=
  ['v', 'e', 'r', 's', 'i', 'o', 'n', 'N', 'a', 'm', 'e']

/-- The literal `versionCode` of the second pattern. -/
def litCode : List Char :=
  ['v', 'e', 'r', 's', 'i', 'o', 'n', 'C', 'o', 'd', 'e']

/-- Strip an expected literal from the front of a string, returning the
remainder on success. -/
def stripLit : List Char → List Char → Option (List Char)
  | [], s => some s
  | _ :: _, [] => none
  | c :: l, d :: s => if c = d then stripLit l s else none

/-- Expect a double quote and return what follows it. -/
def expectQuote : List Char → Option (List Char)
  | [] => none
  | c :: r => if c = '"' then some r else none

/-- Match `versionName\s+"([0-9.]+)"` at the start of the string: the
literal, a nonempty whitespace run, a quote, a nonempty `[0-9.]` run
(the capture), and a closing quote.  The greedy runs are maximal, which
agrees with the engine since `"` belongs to neither class. -/
def matchAtName (s : List Char) : Option MRes :=
  (stripLit litName s).bind fun s1 =>
  let ws := s1.takeWhile isWS
  if ws = [] then none else
  (expectQuote (s1.dropWhile isWS)).bind fun s3 =>
  let nm := s3.takeWhile isNameChar
  if nm = [] then none else
  (expectQuote (s3.dropWhile isNameChar)).map fun rest =>
  ⟨litName ++ ws ++ '"' :: (nm ++ ['"']), nm, rest⟩

/-- Match `versionCode\s+(\d+)` at the start of the string: the literal,
a nonempty whitespace run, and a nonempty maximal digit run (the
capture). -/
def matchAtCode (s : List Char) : Option MRes :=
  (stripLit litCode s).bind fun s1 =>
  let ws := s1.takeWhile isWS
  if ws = [] then none else
  let s2 := s1.dropWhile isWS
  let ds := s2.takeWhile isDigit
  if ds = [] then none else
  some ⟨litCode ++ ws ++ ds, ds, s2.dropWhile isDigit⟩

/-- Leftmost match of a pattern in a string, as the text before the match
together with the match; `none` when the pattern does not occur
(`regexp.FindStringSubmatch` returning fewer than 2 entries). -/
def findFirst (mAt : List Char → Option MRes) : List Char → Option (List Char × MRes)
  | [] =>
    match mAt [] with
    | some m => some ([], m)
    | none => none
  | c :: t =>
    match mAt (c :: t) with
    | some m => some ([], m)
    | none => (findFirst mAt t).map (fun p => (c :: p.1, p.2))

/-- Fuelled worker for `replaceAll`; each found match is nonempty, so fuel
`s.length` always suffices. -/
def replaceAllF (mAt : List Char → Option MRes) (repl : List Char) : Nat → List Char → List Char
  | 0, s => s
  | fuel + 1, s =>
    match findFirst mAt s with
    | none => s
    | some (pre, m) => pre ++ repl ++ replaceAllF mAt repl fuel m.rest

/-- `regexp.ReplaceAllString` for one of the two patterns: replace every
non-overlapping leftmost match by `repl`. -/
def replaceAll (mAt : List Char → Option MRes) (repl : List Char) (s : List Char) : List Char :=
  replaceAllF mAt repl s.length s

/-- Decimal digit character of a value below 10. -/
def digitChar : Nat → Char
  | 0 => '0'
  | 1 => '1'
  | 2 => '2'
  | 3 => '3'
  | 4 => '4'
  | 5 => '5'
  | 6 => '6'
  | 7 => '7'
  | 8 => '8'
  | 9 => '9'
  | _ => '*'

/-- Fuelled decimal rendering of a natural number. -/
def natToDigitsF : Nat → Nat → List Char
  | 0, _ => []
  | fuel + 1, n =>
    if n < 10 then [digitChar n]
    else natToDigitsF fuel (n / 10) ++ [digitChar (n % 10)]

/-- Decimal rendering of a natural number (`strconv.Itoa` on naturals). -/
def natToDigits (n : Nat) : List Char :=
  natToDigitsF (n + 1) n

/-- `strconv.Itoa` on Go `int` values. -/
def intToDigits (i : Int) : List Char :=
  if i < 0 then '-' :: natToDigits (-i).toNat else natToDigits i.toNat

/-- Numeric value of one decimal digit character. -/
def charVal (c : Char) : Nat := c.toNat - 48

/-- Numeric value of a decimal digit string. -/
def digitVal (ds : List Char) : Nat :=
  ds.foldl (fun a c => 10 * a + charVal c) 0

/-- The version-pair record of `main.go`: integer build number and
dotted-numeric version string. -/
structure Versions where
  Code : Int
  Name : List Char
deriving Repr, DecidableEq

/-- Largest signed 32-bit integer, the bound of
`strconv.ParseInt(matchesCode[1], 10, 32)`. -/
def int32Max : Nat := 2147483647

/-- `getVersionsFromFile` of `main.go`, on the content of the build file
(the `ioutil.ReadFile` step is modelled in `run`): first match of
`versionName\s+"([0-9.]+)"`, first match of `versionCode\s+(\d+)`, and
`strconv.ParseInt` of the code capture with bit size 32 (the capture is a
nonempty digit string, so only the range check can fail). -/
def getVersionsFromFile (content : List Char) : Except String Versions :=
  match findFirst matchAtName content with
  | none => .error "Failed to match `versionName`"
  | some pn =>
    match findFirst matchAtCode content with
    | none => .error "Failed to match `versionCode`"
    | some pc =>
      if digitVal pc.2.capture ≤ int32Max then
        .ok ⟨(digitVal pc.2.capture : Int), pn.2.capture⟩
      else
        .error "value out of range"

/-- The replacement text `"versionName \"" + versions.Name + "\""`.
The program only ever substitutes names made of digits and dots, which
contain no `$`, so `ReplaceAllString`'s template expansion is the literal
replacement modelled here. -/
def replName (name : List Char) : List Char :=
  litName ++ ' ' :: '"' :: (name ++ ['"'])

/-- The replacement text `"versionCode " + strconv.Itoa(versions.Code)`. -/
def replCode (code : Int) : List Char :=
  litCode ++ ' ' :: intToDigits code

/-- The new file body computed by `setVersionsToFile` of `main.go`: replace
all `versionName` matches, then all `versionCode` matches, in the content
read from the file (the read and write are modelled in `run`). -/
def setVersionsToFile (content : List Char) (v : Versions) : List Char :=
  replaceAll matchAtCode (replCode v.Code) (replaceAll matchAtName (replName v.Name) content)

/-- `strings.SplitN(s, ".", 3)` of the external semantic-version library. -/
def splitN3 (s : List Char) : List (List Char) :=
  let a := s.takeWhile (fun c => c != '.')
  match s.dropWhile (fun c => c != '.') with
  | [] => [a]
  | _ :: r1 =>
    let b := r1.takeWhile (fun c => c != '.')
    match r1.dropWhile (fun c => c != '.') with
    | [] => [a, b]
    | _ :: r2 => [a, b, r2]

/-- Parse of a nonempty all-digit component (`strconv.ParseInt` on a
component that contains neither sign character). -/
def parseNatDigits (l : List Char) : Option Nat :=
  if !l.isEmpty && l.all isDigit then some (digitVal l) else none

/-- Modelled from the spec: the parse step of the external
semantic-version library (coreos go-semver `NewVersion`), whose source is
not part of this repository.  Metadata (after the first `+`) and then a
pre-release tag (after the first `-`) are split off, the remainder must be
in dotted-tri format `X.Y.Z`, and each component must be numeric. -/
def semverParse (s : List Char) : Option (Nat × Nat × Nat) :=
  match splitN3 ((s.takeWhile (fun c => c != '+')).takeWhile (fun c => c != '-')) with
  | [a, b, c] =>
    match parseNatDigits a, parseNatDigits b, parseNatDigits c with
    | some x, some y, some z => some (x, y, z)
    | _, _, _ => none
  | _ => none

/-- Modelled from the spec: `BumpMajor`/`BumpMinor`/`BumpPatch` of the
external semantic-version library — "major/minor/patch increment with
reset-to-zero of lower components"; any other strategy (the `default`
branch of the `switch`, reached for `"none"`) leaves the version as is. -/
def bumpTriple (bumpType : String) (t : Nat × Nat × Nat) : Nat × Nat × Nat :=
  match bumpType with
  | "major" => (t.1 + 1, 0, 0)
  | "minor" => (t.1, t.2.1 + 1, 0)
  | "patch" => (t.1, t.2.1, t.2.2 + 1)
  | _ => t

/-- Rendering `X.Y.Z` of a version triple (the library's `String()`;
pre-release and metadata are empty on every name the program parses,
since those come from the `[0-9.]+` capture). -/
def renderVer (t : Nat × Nat × Nat) : List Char :=
  natToDigits t.1 ++ '.' :: (natToDigits t.2.1 ++ '.' :: natToDigits t.2.2)

/-- `bumpVersions` of `main.go`: parse the name with the semantic-version
library, bump it according to the strategy, and increment the build
number by one. -/
def bumpVersions (bumpType : String) (v : Versions) : Except String Versions :=
  match semverParse v.Name with
  | none => .error "failed to parse semver"
  | some t => .ok ⟨v.Code + 1, renderVer (bumpTriple bumpType t)⟩

/-- `ConfigsModel.validate` of `main.go`: the bump type must be one of the
four accepted strings; the result is the error, `none` meaning success
(the explanation string returned alongside is always empty). -/
def validate (bumpType : String) : Option String :=
  if bumpType = "major" || bumpType = "minor" || bumpType = "patch" || bumpType = "none" then
    none
  else
    some "Invalid bump type!"

/-- External commands invoked by the step: the `grep` file search of
`find`, `envman add --key k` with a value on stdin, and `git` with its
argument list. -/
inductive ExtCmd
  | findCmd
  | envman (key : String) (value : List Char)
  | git (args : List (List Char))
deriving Repr, DecidableEq

/-- Observable events of a run of `main`. -/
inductive Event
  | printConfig (bumpType : String)
  | info (msg : String)
  | invoke (c : ExtCmd)
  | errorMsg (msg : String)
  | exit1
  | failMsg (msg : String)
  | readF (file content : List Char)
  | writeF (file content : List Char)
deriving Repr, DecidableEq

/-- The environment a run executes in: the `bump_type` input, the outcome
of each external command (`cmdFails`), the file list the `grep` search
prints on success, and the content of the build file (reads are modelled
as succeeding and returning `contents`). -/
structure World where
  bumpType : String
  cmdFails : ExtCmd → Bool
  findFiles : List (List Char)
  contents : List Char

/-- One step of the straight-line tail of `main`: either an external
command whose failure aborts, or an internal event. -/
inductive Step
  | ext (c : ExtCmd) (failText : String)
  | note (e : Event)

/-- Execute a straight-line sequence of steps: each external command is
invoked; when it fails, `log.Fail` prints the failure message and aborts,
so nothing after it runs (`log.Fail` is modelled from the spec: "each
external command failure aborts the process with a printed message"). -/
def execProg (w : World) : List Step → List Event
  | [] => []
  | .note e :: p => e :: execProg w p
  | .ext c ft :: p =>
    .invoke c :: (if w.cmdFails c then [.failMsg ft] else execProg w p)

/-- The fixed git command sequence at the end of the loop body of
`main.go`: diff, add, commit, push, checkout master, merge develop,
annotated tag, push with tags. -/
def gitSteps (file : List Char) (nv : Versions) : List Step :=
  [ .ext (.git ["diff".toList, file]) "Failed to git diff",
    .ext (.git ["add".toList, file]) "Failed to git diff",
    .ext (.git ["commit".toList, "-m".toList, "Bump version to ".toList ++ nv.Name])
      "Failed to git diff",
    .ext (.git ["push".toList, "origin".toList, "HEAD".toList]) "Failed to git diff",
    .ext (.git ["checkout".toList, "master".toList]) "Failed to git diff",
    .ext (.git ["merge".toList, "develop".toList]) "Failed to git diff",
    .ext (.git ["tag".toList, "-a".toList, nv.Name, "-m".toList, nv.Name]) "Failed to git diff",
    .ext (.git ["push".toList, "origin".toList, "HEAD".toList, "--follow-tags".toList])
      "Failed to git diff" ]

/-- The straight-line steps of the loop body after the versions have been
computed: the two `envman` exports, the re-read and write of
`setVersionsToFile`, and the fixed git command sequence of `main.go`. -/
def tailSteps (w : World) (file : List Char) (nv : Versions) : List Step :=
  .ext (.envman "BUMP_VERSION_CODE" (intToDigits nv.Code))
      "Failed to export enviroment (BUMP_VERSION_CODE)" ::
  .ext (.envman "BUMP_VERSION_NAME" nv.Name)
      "Failed to export enviroment (BUMP_VERSION_CODE)" ::
  .note (.readF file w.contents) ::
  .note (.writeF file (setVersionsToFile w.contents nv)) ::
  .note (.info "Git diff:") ::
  gitSteps file nv

/-- The loop body of `main` for the single found build file: read and
parse the current versions, bump them, then run the straight-line tail. -/
def bodyRun (w : World) (file : List Char) : List Event :=
  .info "Current versions:" :: .readF file w.contents ::
  match getVersionsFromFile w.contents with
  | .error e => [.failMsg ("Failed to get versions: " ++ e)]
  | .ok versions =>
    match bumpVersions w.bumpType versions with
    | .error e => [.failMsg ("Failed to bump versions: " ++ e)]
    | .ok nv => .info "New versions:" :: execProg w (tailSteps w file nv)

/-- The `main` function of `main.go` as a trace of events: print the
configuration, validate it (exiting with status 1 on an invalid bump
type), run the `grep` search, fail when it errors or finds zero or more
than one file, and otherwise run the loop body on the single file. -/
def run (w : World) : List Event :=
  .printConfig w.bumpType ::
  match validate w.bumpType with
  | some e => [.errorMsg ("Issue with input: " ++ e), .exit1]
  | none =>
    .info "Find build.gradle file..." ::
    .invoke .findCmd ::
    if w.cmdFails .findCmd then
      [.failMsg "Failed to find `build.gradle` file"]
    else
      match w.findFiles with
      | [] => [.failMsg "No `build.gradle` file found"]
      | [f] => bodyRun w f
      | _ => [.failMsg "Found more than one `build.gradle` file"]

/-! ### Basic lemmas about the matchers -/

theorem stripLit_some : ∀ l s r, stripLit l s = some r → s = l ++ r := by
  intro l
  induction l with
  | nil =>
    intro s r h
    simp only [stripLit, Option.some.injEq] at h
    simp [h]
  | cons c l ih =>
    intro s r h
    cases s with
    | nil => simp [stripLit] at h
    | cons d s =>
      simp only [stripLit] at h
      split at h
      · next hcd =>
        subst hcd
        simp [ih s r h]
      · exact absurd h (by simp)

theorem stripLit_self : ∀ l r, stripLit l (l ++ r) = some r := by
  intro l
  induction l with
  | nil => intro r; rfl
  | cons c l ih => intro r; simp [stripLit, ih]

theorem expectQuote_some {t r : List Char} (h : expectQuote t = some r) : t = '"' :: r := by
  cases t with
  | nil => simp [expectQuote] at h
  | cons c t' =>
    simp only [expectQuote] at h
    by_cases hc : c = '"'
    · rw [if_pos hc] at h
      simp only [Option.some.injEq] at h
      rw [hc, h]
    · rw [if_neg hc] at h
      exact absurd h (by simp)

theorem takeWhile_all_append {p : Char → Bool} {a b : List Char} (ha : ∀ c ∈ a, p c = true)
    (hb : ∀ c, b.head? = some c → p c = false) :
    (a ++ b).takeWhile p = a ∧ (a ++ b).dropWhile p = b := by
  induction a with
  | nil =>
    cases b with
    | nil => simp
    | cons c b' =>
      have := hb c rfl
      simp [List.takeWhile_cons, List.dropWhile_cons, this]
  | cons x a' ih =>
    have hx : p x = true := ha x (by simp)
    have ih' := ih (fun c hc => ha c (by simp [hc]))
    simp [List.takeWhile_cons, List.dropWhile_cons, hx, ih'.1, ih'.2]

theorem dropWhile_head {p : Char → Bool} :
    ∀ {l : List Char} {c : Char}, (l.dropWhile p).head? = some c → p c = false := by
  intro l
  induction l with
  | nil => intro c h; simp at h
  | cons d t ih =>
    intro c h
    by_cases hd : p d
    · rw [List.dropWhile_cons, if_pos hd] at h
      exact ih h
    · rw [List.dropWhile_cons, if_neg hd] at h
      simp only [List.head?_cons, Option.some.injEq] at h
      subst h
      exact Bool.not_eq_true _ ▸ (by simpa using hd)

theorem matchAtName_shape {s : List Char} {m : MRes} (h : matchAtName s = some m) :
    ∃ ws nm, m.matched = litName ++ ws ++ '"' :: (nm ++ ['"']) ∧ m.capture = nm ∧
      s = m.matched ++ m.rest ∧
      ws ≠ [] ∧ (∀ c ∈ ws, isWS c = true) ∧
      nm ≠ [] ∧ (∀ c ∈ nm, isNameChar c = true) := by
  simp only [matchAtName, Option.bind_eq_some] at h
  obtain ⟨s1, hs1, h⟩ := h
  by_cases hws : s1.takeWhile isWS = []
  · rw [if_pos hws] at h; exact absurd h (by simp)
  rw [if_neg hws] at h
  simp only [Option.bind_eq_some] at h
  obtain ⟨s3, hq1, h⟩ := h
  by_cases hnm : s3.takeWhile isNameChar = []
  · rw [if_pos hnm] at h; exact absurd h (by simp)
  rw [if_neg hnm] at h
  simp only [Option.map_eq_some'] at h
  obtain ⟨rest, hq2, hm⟩ := h
  refine ⟨s1.takeWhile isWS, s3.takeWhile isNameChar, ?_, ?_, ?_, hws, ?_, hnm, ?_⟩
  · rw [← hm]
  · rw [← hm]
  · have e1 := stripLit_some litName s s1 hs1
    have e2 : s1.takeWhile isWS ++ s1.dropWhile isWS = s1 :=
      List.takeWhile_append_dropWhile _ _
    have e3 : s3.takeWhile isNameChar ++ s3.dropWhile isNameChar = s3 :=
      List.takeWhile_append_dropWhile _ _
    rw [expectQuote_some hq1] at e2
    rw [expectQuote_some hq2] at e3
    rw [← hm]
    simp only []
    set w := s1.takeWhile isWS with hw
    set n := s3.takeWhile isNameChar with hn
    rw [e1, ← e2, ← e3]
    simp
  · intro c hc; exact List.mem_takeWhile_imp hc
  · intro c hc; exact List.mem_takeWhile_imp hc

theorem matchAtCode_shape {s : List Char} {m : MRes} (h : matchAtCode s = some m) :
    ∃ ws ds, m.matched = litCode ++ ws ++ ds ∧ m.capture = ds ∧
      s = m.matched ++ m.rest ∧
      ws ≠ [] ∧ (∀ c ∈ ws, isWS c = true) ∧
      ds ≠ [] ∧ (∀ c ∈ ds, isDigit c = true) ∧
      (∀ c, m.rest.head? = some c → isDigit c = false) := by
  simp only [matchAtCode, Option.bind_eq_some] at h
  obtain ⟨s1, hs1, h⟩ := h
  by_cases hws : s1.takeWhile isWS = []
  · rw [if_pos hws] at h; exact absurd h (by simp)
  rw [if_neg hws] at h
  by_cases hds : (s1.dropWhile isWS).takeWhile isDigit = []
  · rw [if_pos hds] at h; exact absurd h (by simp)
  rw [if_neg hds] at h
  simp only [Option.some.injEq] at h
  refine ⟨s1.takeWhile isWS, (s1.dropWhile isWS).takeWhile isDigit, ?_, ?_, ?_, hws, ?_, hds,
    ?_, ?_⟩
  · rw [← h]
  · rw [← h]
  · have e1 := stripLit_some litCode s s1 hs1
    have e2 : s1.takeWhile isWS ++ s1.dropWhile isWS = s1 :=
      List.takeWhile_append_dropWhile _ _
    have e3 : (s1.dropWhile isWS).takeWhile isDigit ++ (s1.dropWhile isWS).dropWhile isDigit
        = s1.dropWhile isWS := List.takeWhile_append_dropWhile _ _
    rw [← h]
    simp only []
    set w := s1.takeWhile isWS with hw
    set s2 := s1.dropWhile isWS with hs2
    set d := s2.takeWhile isDigit with hd
    set r := s2.dropWhile isDigit with hr
    rw [e1, ← e2, ← e3]
    simp
  · intro c hc; exact List.mem_takeWhile_imp hc
  · intro c hc; exact List.mem_takeWhile_imp hc
  · intro c hc
    rw [← h] at hc
    exact dropWhile_head hc

theorem matchAtName_decomp {s : List Char} {m : MRes} (h : matchAtName s = some m) :
    s = m.matched ++ m.rest := by
  obtain ⟨ws, nm, _, _, hd, _⟩ := matchAtName_shape h
  exact hd

theorem matchAtCode_decomp {s : List Char} {m : MRes} (h : matchAtCode s = some m) :
    s = m.matched ++ m.rest := by
  obtain ⟨ws, ds, _, _, hd, _⟩ := matchAtCode_shape h
  exact hd

theorem matchAtName_ne {s : List Char} {m : MRes} (h : matchAtName s = some m) :
    m.matched ≠ [] := by
  obtain ⟨ws, nm, hmm, _⟩ := matchAtName_shape h
  rw [hmm]
  simp [litName]

theorem matchAtCode_ne {s : List Char} {m : MRes} (h : matchAtCode s = some m) :
    m.matched ≠ [] := by
  obtain ⟨ws, ds, hmm, _⟩ := matchAtCode_shape h
  rw [hmm]
  simp [litCode]

/-! ### findFirst: decomposition and minimality -/

theorem findFirst_decomp {mAt : List Char → Option MRes}
    (hdec : ∀ s m, mAt s = some m → s = m.matched ++ m.rest) :
    ∀ (s p : List Char) (m : MRes), findFirst mAt s = some (p, m) →
      s = p ++ m.matched ++ m.rest ∧ mAt (m.matched ++ m.rest) = some m := by
  intro s
  induction s with
  | nil =>
    intro p m h
    simp only [findFirst] at h
    cases hm : mAt [] with
    | none => rw [hm] at h; exact absurd h (by simp)
    | some m' =>
      rw [hm] at h
      simp only [Option.some.injEq, Prod.mk.injEq] at h
      obtain ⟨hp, hmm⟩ := h
      subst hp
      rw [hmm] at hm
      have := hdec [] m hm
      constructor
      · simpa using this
      · rw [← this]; exact hm
  | cons c t ih =>
    intro p m h
    simp only [findFirst] at h
    cases hm : mAt (c :: t) with
    | some m' =>
      rw [hm] at h
      simp only [Option.some.injEq, Prod.mk.injEq] at h
      obtain ⟨hp, hmm⟩ := h
      subst hp
      rw [hmm] at hm
      have := hdec _ m hm
      constructor
      · simpa using this
      · rw [← this]; exact hm
    | none =>
      rw [hm] at h
      cases hft : findFirst mAt t with
      | none => rw [hft] at h; exact absurd h (by simp)
      | some q =>
        obtain ⟨p', m'⟩ := q
        rw [hft] at h
        simp only [Option.map_some', Option.some.injEq, Prod.mk.injEq] at h
        obtain ⟨hp, hmm⟩ := h
        rw [hmm] at hft
        obtain ⟨h1, h2⟩ := ih p' m hft
        subst hp
        constructor
        · simp only [List.cons_append, List.append_assoc] at h1 ⊢
          rw [← h1]
        · exact h2

theorem findFirst_min {mAt : List Char → Option MRes}
    (hdec : ∀ s m, mAt s = some m → s = m.matched ++ m.rest) :
    ∀ (s p : List Char) (m : MRes), findFirst mAt s = some (p, m) →
      ∀ a b, p = a ++ b → b ≠ [] → mAt (b ++ (m.matched ++ m.rest)) = none := by
  intro s
  induction s with
  | nil =>
    intro p m h a b hab hb
    have h1 := (findFirst_decomp hdec [] p m h).1
    have hp : p = [] := by
      rcases p with _ | ⟨x, xs⟩
      · rfl
      · exact absurd h1 (by simp)
    rw [hp] at hab
    have : b = [] := by
      rcases List.append_eq_nil.mp hab.symm with ⟨_, hb'⟩
      exact hb'
    exact absurd this hb
  | cons c t ih =>
    intro p m h a b hab hb
    simp only [findFirst] at h
    cases hm : mAt (c :: t) with
    | some m' =>
      rw [hm] at h
      simp only [Option.some.injEq, Prod.mk.injEq] at h
      obtain ⟨hp, _⟩ := h
      rw [← hp] at hab
      have : b = [] := by
        rcases List.append_eq_nil.mp hab.symm with ⟨_, hb'⟩
        exact hb'
      exact absurd this hb
    | none =>
      rw [hm] at h
      cases hft : findFirst mAt t with
      | none => rw [hft] at h; exact absurd h (by simp)
      | some q =>
        obtain ⟨p', m'⟩ := q
        rw [hft] at h
        simp only [Option.map_some', Option.some.injEq, Prod.mk.injEq] at h
        obtain ⟨hp, hmm⟩ := h
        rw [hmm] at hft
        cases a with
        | nil =>
          simp only [List.nil_append] at hab
          rw [← hp] at hab
          subst hab
          have hdec1 := (findFirst_decomp hdec t p' m hft).1
          have heq : c :: p' ++ (m.matched ++ m.rest) = c :: t := by
            simp only [List.cons_append, List.cons.injEq, true_and]
            rw [← List.append_assoc, ← hdec1]
          rw [heq]
          exact hm
        | cons x a' =>
          have hx : a' ++ b = p' := by
            rw [← hp] at hab
            simp only [List.cons_append, List.cons.injEq] at hab
            exact hab.2.symm
          exact ih p' m hft a' b hx.symm hb

/-! ### Structure of replaceAll: unmatched segments are preserved -/

/-- Interleave unmatched segments `us` with matched/replaced blocks `ms`:
`u0 ++ m1 ++ u1 ++ m2 ++ ...`. -/
def interleave : List (List Char) → List (List Char) → List Char
  | [], _ => []
  | u :: _, [] => u
  | u :: us, m :: ms => u ++ m ++ interleave us ms

theorem replaceAllF_struct {mAt : List Char → Option MRes} {repl : List Char}
    (hdec : ∀ s m, mAt s = some m → s = m.matched ++ m.rest)
    (hne : ∀ s m, mAt s = some m → m.matched ≠ []) :
    ∀ fuel s, s.length ≤ fuel →
      ∃ us ms, s = interleave us ms ∧
        replaceAllF mAt repl fuel s = interleave us (ms.map fun _ => repl) ∧
        (∀ mm ∈ ms, ∃ cap rest, mAt (mm ++ rest) = some ⟨mm, cap, rest⟩) := by
  intro fuel
  induction fuel with
  | zero =>
    intro s hs
    refine ⟨[s], [], rfl, rfl, by simp⟩
  | succ fuel ih =>
    intro s hs
    cases hf : findFirst mAt s with
    | none =>
      refine ⟨[s], [], rfl, ?_, by simp⟩
      simp [replaceAllF, hf, interleave]
    | some q =>
      obtain ⟨p, m⟩ := q
      obtain ⟨hds, hmat⟩ := findFirst_decomp hdec s p m hf
      have hrestlen : m.rest.length ≤ fuel := by
        have h1 : s.length = p.length + m.matched.length + m.rest.length := by
          rw [hds]; simp; omega
        have h2 : m.matched.length ≥ 1 := by
          have := hne _ _ hmat
          cases hmm : m.matched with
          | nil => exact absurd hmm this
          | cons x xs => simp
        omega
      obtain ⟨us, ms, h1, h2, h3⟩ := ih m.rest hrestlen
      refine ⟨p :: us, m.matched :: ms, ?_, ?_, ?_⟩
      · rw [hds, h1]
        simp [interleave]
      · have hstep : replaceAllF mAt repl (fuel + 1) s
            = p ++ repl ++ replaceAllF mAt repl fuel m.rest := by
          simp [replaceAllF, hf]
        rw [hstep, h2]
        simp [interleave]
      · intro mm hmm2
        rcases List.mem_cons.mp hmm2 with rfl | hmm2
        · exact ⟨m.capture, m.rest, by simpa using hmat⟩
        · exact h3 mm hmm2

/-! ### Decimal rendering and parsing -/

theorem digitChar_isDigit {d : Nat} (h : d < 10) : isDigit (digitChar d) = true := by
  interval_cases d <;> decide

theorem charVal_digitChar {d : Nat} (h : d < 10) : charVal (digitChar d) = d := by
  interval_cases d <;> decide

theorem digitVal_append_last (xs : List Char) (c : Char) :
    digitVal (xs ++ [c]) = 10 * digitVal xs + charVal c := by
  simp [digitVal, List.foldl_append]

theorem natToDigitsF_spec : ∀ fuel n, n < fuel →
    natToDigitsF fuel n ≠ [] ∧ (∀ c ∈ natToDigitsF fuel n, isDigit c = true) ∧
      digitVal (natToDigitsF fuel n) = n := by
  intro fuel
  induction fuel with
  | zero => intro n h; omega
  | succ fuel ih =>
    intro n h
    by_cases h10 : n < 10
    · rw [natToDigitsF, if_pos h10]
      refine ⟨by simp, ?_, ?_⟩
      · intro c hc
        simp only [List.mem_singleton] at hc
        subst hc
        exact digitChar_isDigit h10
      · show digitVal ([] ++ [digitChar n]) = n
        rw [digitVal_append_last]
        simp [digitVal, charVal_digitChar h10]
    · rw [natToDigitsF, if_neg h10]
      have hlt : n / 10 < n := Nat.div_lt_self (by omega) (by omega)
      have hdiv : n / 10 < fuel := by omega
      obtain ⟨h1, h2, h3⟩ := ih (n / 10) hdiv
      refine ⟨by simp, ?_, ?_⟩
      · intro c hc
        rcases List.mem_append.mp hc with hc | hc
        · exact h2 c hc
        · simp only [List.mem_singleton] at hc
          subst hc
          exact digitChar_isDigit (Nat.mod_lt _ (by omega))
      · rw [digitVal_append_last, h3, charVal_digitChar (Nat.mod_lt _ (by omega))]
        omega

theorem natToDigits_spec (n : Nat) :
    natToDigits n ≠ [] ∧ (∀ c ∈ natToDigits n, isDigit c = true) ∧
      digitVal (natToDigits n) = n :=
  natToDigitsF_spec (n + 1) n (by omega)

theorem ne_of_isDigit {c x : Char} (h : isDigit c = true) (hx : isDigit x = false) : c ≠ x := by
  intro he
  rw [he, hx] at h
  exact Bool.noConfusion h

/-! ### The semantic-version round trip -/

theorem renderVer_chars {t : Nat × Nat × Nat} :
    ∀ c ∈ renderVer t, isDigit c = true ∨ c = '.' := by
  intro c hc
  obtain ⟨x, y, z⟩ := t
  simp only [renderVer, List.mem_append, List.mem_cons] at hc
  rcases hc with hc | hc | hc | hc | hc
  · exact Or.inl ((natToDigits_spec x).2.1 c hc)
  · exact Or.inr hc
  · exact Or.inl ((natToDigits_spec y).2.1 c hc)
  · exact Or.inr hc
  · exact Or.inl ((natToDigits_spec z).2.1 c hc)

theorem parseNatDigits_natToDigits (n : Nat) : parseNatDigits (natToDigits n) = some n := by
  obtain ⟨h1, h2, h3⟩ := natToDigits_spec n
  have he : (natToDigits n).isEmpty = false := by
    cases hn : natToDigits n with
    | nil => exact absurd hn h1
    | cons c t => simp
  have ha : (natToDigits n).all isDigit = true := List.all_eq_true.mpr h2
  simp [parseNatDigits, he, ha, h3]

theorem semverParse_render (t : Nat × Nat × Nat) : semverParse (renderVer t) = some t := by
  obtain ⟨x, y, z⟩ := t
  have hx := natToDigits_spec x
  have hy := natToDigits_spec y
  have hz := natToDigits_spec z
  have hplus : (renderVer (x, y, z)).takeWhile (fun c => c != '+') = renderVer (x, y, z) := by
    rw [List.takeWhile_eq_self_iff]
    intro c hc
    rcases renderVer_chars c hc with h | h
    · simp [ne_of_isDigit h (show isDigit '+' = false by decide)]
    · simp [h]
  have hminus : (renderVer (x, y, z)).takeWhile (fun c => c != '-') = renderVer (x, y, z) := by
    rw [List.takeWhile_eq_self_iff]
    intro c hc
    rcases renderVer_chars c hc with h | h
    · simp [ne_of_isDigit h (show isDigit '-' = false by decide)]
    · simp [h]
  have hr : renderVer (x, y, z)
      = natToDigits x ++ '.' :: (natToDigits y ++ '.' :: natToDigits z) := rfl
  have hsx : (natToDigits x ++ '.' :: (natToDigits y ++ '.' :: natToDigits z)).takeWhile
        (fun c => c != '.') = natToDigits x ∧
      (natToDigits x ++ '.' :: (natToDigits y ++ '.' :: natToDigits z)).dropWhile
        (fun c => c != '.') = '.' :: (natToDigits y ++ '.' :: natToDigits z) := by
    apply takeWhile_all_append
    · intro c hc
      simp [ne_of_isDigit (hx.2.1 c hc) (show isDigit '.' = false by decide)]
    · intro c hc
      simp only [List.head?_cons, Option.some.injEq] at hc
      subst hc
      simp
  have hsy : (natToDigits y ++ '.' :: natToDigits z).takeWhile (fun c => c != '.')
        = natToDigits y ∧
      (natToDigits y ++ '.' :: natToDigits z).dropWhile (fun c => c != '.')
        = '.' :: natToDigits z := by
    apply takeWhile_all_append
    · intro c hc
      simp [ne_of_isDigit (hy.2.1 c hc) (show isDigit '.' = false by decide)]
    · intro c hc
      simp only [List.head?_cons, Option.some.injEq] at hc
      subst hc
      simp
  unfold semverParse
  rw [hplus, hminus, hr]
  unfold splitN3
  simp only [hsx.1, hsx.2, hsy.1, hsy.2]
  simp [parseNatDigits_natToDigits]

/-! ### Trace predicates -/

/-- Is this event an `envman` invocation (a pipeline-variable export)? -/
def isEnvmanInvoke : Event → Bool
  | .invoke (.envman _ _) => true
  | _ => false

/-- Is this event a `git` invocation? -/
def isGitInvoke : Event → Bool
  | .invoke (.git _) => true
  | _ => false

/-- Is this event a file write? -/
def isWriteEvent : Event → Bool
  | .writeF _ _ => true
  | _ => false

/-- Is this event a file read? -/
def isReadEvent : Event → Bool
  | .readF _ _ => true
  | _ => false

/-- Does every invocation of a failing external command end the trace
immediately, with exactly a printed failure message after it? -/
def goodTrace (w : World) : List Event → Bool
  | [] => true
  | .invoke c :: rest =>
    if w.cmdFails c then
      match rest with
      | [.failMsg _] => true
      | _ => false
    else goodTrace w rest
  | _ :: rest => goodTrace w rest

/-- A step whose event is not itself an invocation (true of every `note`
the program emits). -/
def stepOk : Step → Bool
  | .note (.invoke _) => false
  | _ => true

/-- Does every write event of the trace occur before every export
(`envman`) invocation? -/
def writesPrecedeExports : List Event → Bool
  | [] => true
  | .invoke (.envman _ _) :: rest => !(rest.any isWriteEvent) && writesPrecedeExports rest
  | _ :: rest => writesPrecedeExports rest

/-- Phase of an event in the tail of the loop body: exports, then the file
write, then git commands. -/
def phaseOf : Event → Option Nat
  | .invoke (.envman _ _) => some 0
  | .writeF _ _ => some 1
  | .invoke (.git _) => some 2
  | _ => none

/-- All events a straight-line step list would emit if nothing failed. -/
def fullEv : List Step → List Event
  | [] => []
  | .note e :: p => e :: fullEv p
  | .ext c _ :: p => .invoke c :: fullEv p

/-! ### Claim theorems: configuration and version bumping -/

/-- C3: configuration validation succeeds exactly for the four strategies
`major`, `minor`, `patch`, `none`; for any other value `validate` returns
an error and `main` prints it and exits with status 1 immediately — the
whole trace is the configuration print, the error message and the exit,
with no file search, read or write. -/
theorem C3_validate_iff_and_early_exit :
    (∀ bt : String, validate bt = none ↔
        (bt = "major" ∨ bt = "minor" ∨ bt = "patch" ∨ bt = "none")) ∧
    (∀ (w : World) (msg : String), validate w.bumpType = some msg →
        run w = [.printConfig w.bumpType, .errorMsg ("Issue with input: " ++ msg), .exit1]) := by
  constructor
  · intro bt
    constructor
    · intro h
      by_contra hcon
      push_neg at hcon
      obtain ⟨h1, h2, h3, h4⟩ := hcon
      simp [validate, h1, h2, h3, h4] at h
    · intro h
      rcases h with h | h | h | h <;> simp [validate, h]
  · intro w msg h
    unfold run
    rw [h]

/-- Demonstration world with an empty (hence invalid) bump type. -/
def badWorld : World :=
  { bumpType := "", cmdFails := fun _ => false, findFiles := [], contents := [] }

/-- Witness for C3 at the concrete invalid bump type `""`. -/
theorem C3_witness :
    validate "" = some "Invalid bump type!" ∧
    run badWorld
      = [.printConfig "", .errorMsg ("Issue with input: " ++ "Invalid bump type!"), .exit1] :=
  ⟨rfl, C3_validate_iff_and_early_exit.2 badWorld "Invalid bump type!" rfl⟩

/-- C4, counterexample: the name `01.2.3` parses as the semantic version
`1.2.3` (numeric components admit leading zeros), yet under the strategy
`none` the program re-renders the parsed version, returning `1.2.3`:
the name is not unchanged, refuting the claim's last clause. -/
theorem C4_counterexample :
    semverParse ("01.2.3".toList) = some (1, 2, 3) ∧
    bumpVersions "none" ⟨0, "01.2.3".toList⟩ = .ok ⟨1, "1.2.3".toList⟩ ∧
    "1.2.3".toList ≠ "01.2.3".toList :=
  ⟨by decide, by rfl, by decide⟩

/-- C4, amended: for every version name that parses as a semantic version
`X.Y.Z`, the bumped name is the rendering of `(X+1).0.0` for `major`, of
`X.(Y+1).0` for `minor`, of `X.Y.(Z+1)` for `patch`, and of the parsed
`X.Y.Z` itself — the canonical rendering, not necessarily the original
spelling — for the remaining accepted strategy `none`. -/
theorem C4_amended_bump (x y z : Nat) (code : Int) (name : List Char)
    (h : semverParse name = some (x, y, z)) :
    bumpVersions "major" ⟨code, name⟩ = .ok ⟨code + 1, renderVer (x + 1, 0, 0)⟩ ∧
    bumpVersions "minor" ⟨code, name⟩ = .ok ⟨code + 1, renderVer (x, y + 1, 0)⟩ ∧
    bumpVersions "patch" ⟨code, name⟩ = .ok ⟨code + 1, renderVer (x, y, z + 1)⟩ ∧
    bumpVersions "none" ⟨code, name⟩ = .ok ⟨code + 1, renderVer (x, y, z)⟩ := by
  refine ⟨?_, ?_, ?_, ?_⟩ <;>
    simp [bumpVersions, h, bumpTriple]

/-- Witness for the amended C4 at the non-canonical name `01.2.3`. -/
theorem C4_amended_witness :
    semverParse ("01.2.3".toList) = some (1, 2, 3) ∧
    (bumpVersions "major" ⟨41, "01.2.3".toList⟩ = .ok ⟨42, renderVer (2, 0, 0)⟩ ∧
     bumpVersions "minor" ⟨41, "01.2.3".toList⟩ = .ok ⟨42, renderVer (1, 3, 0)⟩ ∧
     bumpVersions "patch" ⟨41, "01.2.3".toList⟩ = .ok ⟨42, renderVer (1, 2, 4)⟩ ∧
     bumpVersions "none" ⟨41, "01.2.3".toList⟩ = .ok ⟨42, renderVer (1, 2, 3)⟩) :=
  ⟨by decide, C4_amended_bump 1 2 3 41 ("01.2.3".toList) (by decide)⟩

/-- C5: whenever `bumpVersions` succeeds under an accepted strategy
(including `none`), the new build number is the old one plus exactly
one. -/
theorem C5_code_increment (bumpType : String) (v nv : Versions)
    (_hbt : bumpType = "major" ∨ bumpType = "minor" ∨ bumpType = "patch" ∨ bumpType = "none")
    (h : bumpVersions bumpType v = .ok nv) : nv.Code = v.Code + 1 := by
  unfold bumpVersions at h
  cases hp : semverParse v.Name with
  | none => rw [hp] at h; exact absurd h (by simp)
  | some t =>
    rw [hp] at h
    simp only [Except.ok.injEq] at h
    rw [← h]

/-- Witness for C5 at the concrete strategy `none` and version `1.0.0`. -/
theorem C5_witness :
    bumpVersions "none" ⟨41, renderVer (1, 0, 0)⟩ = .ok ⟨42, renderVer (1, 0, 0)⟩ ∧
    (Versions.mk 42 (renderVer (1, 0, 0))).Code = (Versions.mk 41 (renderVer (1, 0, 0))).Code + 1 :=
  ⟨rfl,
   C5_code_increment "none" ⟨41, renderVer (1, 0, 0)⟩ ⟨42, renderVer (1, 0, 0)⟩
     (Or.inr (Or.inr (Or.inr rfl))) rfl⟩

/-! ### Claim theorems: abort behaviour of the run -/

theorem execProg_good (w : World) :
    ∀ p : List Step, (∀ s ∈ p, stepOk s = true) → goodTrace w (execProg w p) = true := by
  intro p
  induction p with
  | nil => intro _; rfl
  | cons s p ih =>
    intro hall
    have hrest : ∀ s ∈ p, stepOk s = true := fun s hs => hall s (List.mem_cons_of_mem _ hs)
    cases s with
    | note e =>
      have he : stepOk (.note e) = true := hall _ (by simp)
      cases e with
      | invoke c => exact absurd he (by simp [stepOk])
      | printConfig bt => simpa only [execProg, goodTrace] using ih hrest
      | info msg => simpa only [execProg, goodTrace] using ih hrest
      | errorMsg msg => simpa only [execProg, goodTrace] using ih hrest
      | exit1 => simpa only [execProg, goodTrace] using ih hrest
      | failMsg msg => simpa only [execProg, goodTrace] using ih hrest
      | readF f c => simpa only [execProg, goodTrace] using ih hrest
      | writeF f c => simpa only [execProg, goodTrace] using ih hrest
    | ext c ft =>
      simp only [execProg]
      by_cases hc : w.cmdFails c
      · simp [goodTrace, hc]
      · simp only [goodTrace, hc, if_false, Bool.false_eq_true]
        simpa [hc] using ih hrest

theorem tailSteps_ok (w : World) (file : List Char) (nv : Versions) :
    ∀ s ∈ tailSteps w file nv, stepOk s = true := by
  intro s hs
  simp only [tailSteps, gitSteps, List.mem_cons, List.mem_singleton] at hs
  rcases hs with rfl | rfl | rfl | rfl | rfl | rfl | rfl | rfl | rfl | rfl | rfl | rfl | rfl | h
  all_goals first
    | rfl
    | simp at h

theorem bodyRun_good (w : World) (f : List Char) : goodTrace w (bodyRun w f) = true := by
  unfold bodyRun
  cases hg : getVersionsFromFile w.contents with
  | error e => rfl
  | ok vers =>
    show goodTrace w (Event.info "Current versions:" :: Event.readF f w.contents ::
      (match bumpVersions w.bumpType vers with
       | Except.error e => [Event.failMsg ("Failed to bump versions: " ++ e)]
       | Except.ok nv => Event.info "New versions:" :: execProg w (tailSteps w f nv))) = true
    cases hb : bumpVersions w.bumpType vers with
    | error e => rfl
    | ok nv =>
      show goodTrace w (Event.info "Current versions:" :: Event.readF f w.contents ::
        Event.info "New versions:" :: execProg w (tailSteps w f nv)) = true
      show goodTrace w (execProg w (tailSteps w f nv)) = true
      exact execProg_good w _ (tailSteps_ok w f nv)

/-- C2: for every world, each invocation of an external command that
fails (the file search, either export, or any git command) is followed in
the trace by exactly a printed failure message: the process aborts and
nothing after it runs. -/
theorem C2_external_failure_aborts (w : World) : goodTrace w (run w) = true := by
  unfold run
  cases hv : validate w.bumpType with
  | some e => rfl
  | none =>
    by_cases hf : w.cmdFails .findCmd
    · simp [goodTrace, hf]
    · simp only [goodTrace, hf, Bool.false_eq_true, if_false]
      cases hw : w.findFiles with
      | nil => rfl
      | cons f fs =>
        cases fs with
        | cons g t => rfl
        | nil => exact bodyRun_good w f

/-- C7: with a valid bump type and a successful search that does not
return exactly one file, the run aborts with a failure message and
performs no file read or write, no export and no git command. -/
theorem C7_wrong_file_count_aborts (w : World)
    (hv : validate w.bumpType = none)
    (hf : w.cmdFails .findCmd = false)
    (hn : w.findFiles.length ≠ 1) :
    (run w).any (fun e => isReadEvent e || isWriteEvent e || isEnvmanInvoke e || isGitInvoke e)
      = false ∧
    ∃ msg, (run w).getLast? = some (.failMsg msg) := by
  unfold run
  rw [hv]
  simp only [hf, Bool.false_eq_true, if_false]
  cases hw : w.findFiles with
  | nil => exact ⟨rfl, ⟨"No `build.gradle` file found", rfl⟩⟩
  | cons f fs =>
    cases fs with
    | nil => rw [hw] at hn; simp at hn
    | cons g t => exact ⟨rfl, ⟨"Found more than one `build.gradle` file", rfl⟩⟩

/-- Demonstration world whose search finds no file. -/
def noFileWorld : World :=
  { bumpType := "none", cmdFails := fun _ => false, findFiles := [], contents := [] }

/-- Witness for C7 at a concrete world with an empty search result. -/
theorem C7_witness :
    (run noFileWorld).any
        (fun e => isReadEvent e || isWriteEvent e || isEnvmanInvoke e || isGitInvoke e)
      = false ∧
    ∃ msg, (run noFileWorld).getLast? = some (.failMsg msg) :=
  C7_wrong_file_count_aborts noFileWorld rfl rfl (by decide)

/-- C10: when the first `versionCode` capture of the file denotes a value
above `2^31 - 1`, parsing returns an error, and every run over that file
content writes nothing. -/
theorem C10_code_overflow_aborts (content p : List Char) (m : MRes)
    (hfc : findFirst matchAtCode content = some (p, m))
    (hbig : digitVal m.capture > int32Max) :
    (∃ e, getVersionsFromFile content = .error e) ∧
    ∀ w : World, w.contents = content → (run w).any isWriteEvent = false := by
  have herr : ∃ e, getVersionsFromFile content = .error e := by
    unfold getVersionsFromFile
    cases hfn : findFirst matchAtName content with
    | none => exact ⟨_, rfl⟩
    | some pn =>
      rw [hfc]
      show ∃ e, (if digitVal m.capture ≤ int32Max then
          Except.ok (Versions.mk (digitVal m.capture : Int) pn.2.capture)
        else Except.error "value out of range") = Except.error e
      rw [if_neg (by omega)]
      exact ⟨_, rfl⟩
  refine ⟨herr, ?_⟩
  intro w hw
  obtain ⟨e, he⟩ := herr
  unfold run
  cases hv : validate w.bumpType with
  | some msg => rfl
  | none =>
    by_cases hf : w.cmdFails .findCmd
    · simp [hf, isWriteEvent]
    · simp only [hf, Bool.false_eq_true, if_false]
      cases hw2 : w.findFiles with
      | nil => rfl
      | cons f fs =>
        cases fs with
        | cons g t => rfl
        | nil =>
          show (Event.printConfig w.bumpType :: Event.info "Find build.gradle file..."
            :: Event.invoke .findCmd :: bodyRun w f).any isWriteEvent = false
          unfold bodyRun
          rw [hw, he]
          rfl

/-- Demonstration file content whose versionCode exceeds the 32-bit
range. -/
def bigCodeContent : List Char := "versionCode 3000000000".toList

/-- Demonstration world over `bigCodeContent`. -/
def bigCodeWorld : World :=
  { bumpType := "none", cmdFails := fun _ => false, findFiles := ["b".toList],
    contents := bigCodeContent }

/-- Witness for C10 at a concrete file whose versionCode is 3000000000. -/
theorem C10_witness :
    (∃ e, getVersionsFromFile bigCodeContent = .error e) ∧
    (run bigCodeWorld).any isWriteEvent = false := by
  have h := C10_code_overflow_aborts bigCodeContent []
    ⟨"versionCode 3000000000".toList, "3000000000".toList, []⟩ (by decide) (by decide)
  exact ⟨h.1, h.2 bigCodeWorld rfl⟩

/-! ### Claim theorems: order of write, exports and git commands -/

/-- Demonstration world for a fully successful run. -/
def demoWorld : World :=
  { bumpType := "none", cmdFails := fun _ => false, findFiles := ["b".toList],
    contents := "versionCode 7\nversionName \"1.0.0\"\n".toList }

/-- C1, counterexample: the claim says the file write happens before the
two exports; in the trace of a fully successful run the two `envman`
invocations happen first and the write event comes after them, so
`writesPrecedeExports` is false on it. -/
theorem C1_counterexample : ¬ writesPrecedeExports (run demoWorld) = true := by decide

theorem execProg_phases_sublist (w : World) :
    ∀ p : List Step,
      List.Sublist ((execProg w p).filterMap phaseOf) ((fullEv p).filterMap phaseOf) := by
  intro p
  induction p with
  | nil => simp [execProg, fullEv]
  | cons s p ih =>
    cases s with
    | note e =>
      simp only [execProg, fullEv, List.filterMap_cons]
      cases phaseOf e with
      | none => exact ih
      | some ph => exact List.Sublist.cons₂ _ ih
    | ext c ft =>
      by_cases hc : w.cmdFails c
      · have he : execProg w (.ext c ft :: p) = [.invoke c, .failMsg ft] := by
          simp [execProg, hc]
        rw [he]
        show (List.filterMap phaseOf [Event.invoke c, Event.failMsg ft]).Sublist
          (List.filterMap phaseOf (Event.invoke c :: fullEv p))
        have hfm : phaseOf (Event.failMsg ft) = none := rfl
        simp only [List.filterMap_cons, hfm]
        cases phaseOf (Event.invoke c) with
        | none => simp
        | some ph => exact List.Sublist.cons₂ _ (List.nil_sublist _)
      · have he : execProg w (.ext c ft :: p) = .invoke c :: execProg w p := by
          simp [execProg, hc]
        rw [he]
        show (List.filterMap phaseOf (Event.invoke c :: execProg w p)).Sublist
          (List.filterMap phaseOf (Event.invoke c :: fullEv p))
        simp only [List.filterMap_cons]
        cases phaseOf (Event.invoke c) with
        | none => exact ih
        | some ph => exact List.Sublist.cons₂ _ ih

theorem gitSteps_counts (w : World) :
    ∀ p : List Step, (∀ s ∈ p, ∃ args ft, s = .ext (.git args) ft) →
      (execProg w p).countP isEnvmanInvoke = 0 ∧ (execProg w p).countP isWriteEvent = 0 := by
  intro p
  induction p with
  | nil => simp [execProg]
  | cons s p ih =>
    intro hall
    obtain ⟨args, ft, rfl⟩ := hall s (List.mem_cons_self s p)
    have hrest := ih fun s hs => hall s (List.mem_cons_of_mem _ hs)
    simp only [execProg]
    by_cases hc : w.cmdFails (.git args)
    · rw [if_pos hc]
      simp [List.countP_cons, isEnvmanInvoke, isWriteEvent]
    · rw [if_neg hc]
      simp [List.countP_cons, isEnvmanInvoke, isWriteEvent, hrest.1, hrest.2]

theorem gitSteps_shape (file : List Char) (nv : Versions) :
    ∀ s ∈ gitSteps file nv, ∃ args ft, s = .ext (.git args) ft := by
  intro s hs
  simp only [gitSteps, List.mem_cons, List.mem_singleton] at hs
  rcases hs with rfl | rfl | rfl | rfl | rfl | rfl | rfl | rfl | h
  all_goals try simp at h
  all_goals exact ⟨_, _, rfl⟩

theorem bodyRun_cases (w : World) (f : List Char) :
    (∃ msg, bodyRun w f
        = [.info "Current versions:", .readF f w.contents, .failMsg msg]) ∨
    (∃ nv, bodyRun w f = .info "Current versions:" :: .readF f w.contents ::
        .info "New versions:" :: execProg w (tailSteps w f nv)) := by
  unfold bodyRun
  split
  · left; exact ⟨_, rfl⟩
  · split
    · left; exact ⟨_, rfl⟩
    · right; exact ⟨_, rfl⟩

theorem bodyRun_phases (w : World) (f : List Char) :
    ((bodyRun w f).filterMap phaseOf).Pairwise (· ≤ ·) ∧
    ((bodyRun w f).any isGitInvoke = true →
      (bodyRun w f).countP isEnvmanInvoke = 2 ∧ (bodyRun w f).countP isWriteEvent = 1) := by
  rcases bodyRun_cases w f with ⟨msg, he⟩ | ⟨nv, he⟩
  · rw [he]
    exact ⟨by simp [phaseOf], by intro h; simp [isGitInvoke] at h⟩
  · rw [he]
    constructor
    · have hsub := execProg_phases_sublist w (tailSteps w f nv)
      have hfull : (fullEv (tailSteps w f nv)).filterMap phaseOf
          = [0, 0, 1, 2, 2, 2, 2, 2, 2, 2, 2] := rfl
      rw [hfull] at hsub
      have hp : ((execProg w (tailSteps w f nv)).filterMap phaseOf).Pairwise (· ≤ ·) :=
        List.Pairwise.sublist hsub (by decide)
      simpa [List.filterMap_cons, phaseOf] using hp
    · intro hgit
      have hgit2 : (execProg w (tailSteps w f nv)).any isGitInvoke = true := by
        simpa [isGitInvoke] using hgit
      by_cases h1 : w.cmdFails (.envman "BUMP_VERSION_CODE" (intToDigits nv.Code))
      · rw [show execProg w (tailSteps w f nv) = [.invoke (.envman "BUMP_VERSION_CODE"
            (intToDigits nv.Code)), .failMsg "Failed to export enviroment (BUMP_VERSION_CODE)"]
          from by simp [tailSteps, execProg, h1]] at hgit2
        simp [isGitInvoke] at hgit2
      · by_cases h2 : w.cmdFails (.envman "BUMP_VERSION_NAME" nv.Name)
        · rw [show execProg w (tailSteps w f nv) = [.invoke (.envman "BUMP_VERSION_CODE"
              (intToDigits nv.Code)), .invoke (.envman "BUMP_VERSION_NAME" nv.Name),
              .failMsg "Failed to export enviroment (BUMP_VERSION_CODE)"]
            from by simp [tailSteps, execProg, h1, h2]] at hgit2
          simp [isGitInvoke] at hgit2
        · have hexec : execProg w (tailSteps w f nv)
              = .invoke (.envman "BUMP_VERSION_CODE" (intToDigits nv.Code))
              :: .invoke (.envman "BUMP_VERSION_NAME" nv.Name)
              :: .readF f w.contents
              :: .writeF f (setVersionsToFile w.contents nv)
              :: .info "Git diff:"
              :: execProg w (gitSteps f nv) := by
            simp [tailSteps, execProg, h1, h2]
          have hc := gitSteps_counts w (gitSteps f nv) (gitSteps_shape f nv)
          rw [hexec]
          simp [List.countP_cons, isEnvmanInvoke, isWriteEvent, hc.1, hc.2]

/-- C1, amended: in every run the phase order is exports, then the file
write, then the git commands — the write happens after the two exports
(not before, as claimed), and whenever a git command is invoked, both
exports and exactly one write have already happened. -/
theorem C1_amended_order (w : World) :
    ((run w).filterMap phaseOf).Pairwise (· ≤ ·) ∧
    ((run w).any isGitInvoke = true →
      (run w).countP isEnvmanInvoke = 2 ∧ (run w).countP isWriteEvent = 1) := by
  unfold run
  cases hv : validate w.bumpType with
  | some e => exact ⟨by simp [phaseOf], by intro h; simp [isGitInvoke] at h⟩
  | none =>
    by_cases hf : w.cmdFails .findCmd
    · refine ⟨?_, ?_⟩
      · show (List.filterMap phaseOf (Event.printConfig w.bumpType
          :: Event.info "Find build.gradle file..." :: Event.invoke .findCmd
          :: (if w.cmdFails .findCmd then [Event.failMsg "Failed to find `build.gradle` file"]
              else _))).Pairwise (· ≤ ·)
        rw [if_pos hf]
        simp [phaseOf]
      · intro h
        rw [show (Event.printConfig w.bumpType :: Event.info "Find build.gradle file..."
            :: Event.invoke .findCmd :: (if w.cmdFails .findCmd
              then [Event.failMsg "Failed to find `build.gradle` file"]
              else match w.findFiles with
                | [] => [Event.failMsg "No `build.gradle` file found"]
                | [f] => bodyRun w f
                | _ => [Event.failMsg "Found more than one `build.gradle` file"]))
          = [Event.printConfig w.bumpType, Event.info "Find build.gradle file...",
             Event.invoke .findCmd, Event.failMsg "Failed to find `build.gradle` file"]
          from by rw [if_pos hf]] at h
        simp [isGitInvoke] at h
    · rw [if_neg hf]
      cases hw : w.findFiles with
      | nil => exact ⟨by simp [phaseOf], by intro h; simp [isGitInvoke] at h⟩
      | cons f fs =>
        cases fs with
        | cons g t => exact ⟨by simp [phaseOf], by intro h; simp [isGitInvoke] at h⟩
        | nil =>
          obtain ⟨hp, himp⟩ := bodyRun_phases w f
          constructor
          · show (List.filterMap phaseOf (Event.printConfig w.bumpType
              :: Event.info "Find build.gradle file..." :: Event.invoke .findCmd
              :: bodyRun w f)).Pairwise (· ≤ ·)
            simpa [List.filterMap_cons, phaseOf] using hp
          · intro h
            have h' : (bodyRun w f).any isGitInvoke = true := by
              simpa [isGitInvoke] using h
            obtain ⟨h1, h2⟩ := himp h'
            show List.countP isEnvmanInvoke (Event.printConfig w.bumpType
                :: Event.info "Find build.gradle file..." :: Event.invoke .findCmd
                :: bodyRun w f) = 2 ∧
              List.countP isWriteEvent (Event.printConfig w.bumpType
                :: Event.info "Find build.gradle file..." :: Event.invoke .findCmd
                :: bodyRun w f) = 1
            simp [List.countP_cons, isEnvmanInvoke, isWriteEvent, h1, h2]

/-- Witness for the amended C1 at a concrete fully successful run. -/
theorem C1_amended_witness :
    ((run demoWorld).filterMap phaseOf).Pairwise (· ≤ ·) ∧
    ((run demoWorld).countP isEnvmanInvoke = 2 ∧ (run demoWorld).countP isWriteEvent = 1) :=
  ⟨(C1_amended_order demoWorld).1, (C1_amended_order demoWorld).2 (by decide)⟩

/-! ### Claim theorems: the write-back frame property and the parser -/

/-- C6: the file write of `setVersionsToFile` modifies only the matched
`versionName "…"` and `versionCode …` substrings.  The original content
splits into unmatched segments interleaved with `versionName` matches and
the first pass keeps the unmatched segments verbatim, replacing only the
matches; the intermediate body likewise splits along its `versionCode`
matches and the second pass keeps everything outside them verbatim. -/
theorem C6_write_frame (content : List Char) (v : Versions) :
    ∃ us1 ms1 us2 ms2,
      content = interleave us1 ms1 ∧
      replaceAll matchAtName (replName v.Name) content
        = interleave us1 (ms1.map fun _ => replName v.Name) ∧
      (∀ mm ∈ ms1, ∃ cap rest, matchAtName (mm ++ rest) = some ⟨mm, cap, rest⟩) ∧
      replaceAll matchAtName (replName v.Name) content = interleave us2 ms2 ∧
      setVersionsToFile content v = interleave us2 (ms2.map fun _ => replCode v.Code) ∧
      (∀ mm ∈ ms2, ∃ cap rest, matchAtCode (mm ++ rest) = some ⟨mm, cap, rest⟩) := by
  obtain ⟨us1, ms1, h1, h2, h3⟩ :=
    replaceAllF_struct (fun s m h => matchAtName_decomp h) (fun s m h => matchAtName_ne h)
      content.length content le_rfl
  obtain ⟨us2, ms2, g1, g2, g3⟩ :=
    replaceAllF_struct (fun s m h => matchAtCode_decomp h) (fun s m h => matchAtCode_ne h)
      (replaceAll matchAtName (replName v.Name) content).length
      (replaceAll matchAtName (replName v.Name) content) le_rfl
  exact ⟨us1, ms1, us2, ms2, h1, h2, h3, g1, g2, g3⟩

/-- Was the parse an error? -/
def isErr : Except String Versions → Bool
  | .error _ => true
  | .ok _ => false

/-- Demonstration file content in which both fields match but the
versionCode value exceeds the 32-bit range. -/
def bothFieldsBigContent : List Char :=
  "versionName \"1.0.0\" versionCode 3000000000".toList

/-- C8, counterexample: the claim says parsing errs exactly when one of
the two fields has no match; on this content both fields match and
parsing still fails (the versionCode value does not fit in 32 bits), so
the claimed equivalence is false. -/
theorem C8_counterexample :
    ¬ ((isErr (getVersionsFromFile bothFieldsBigContent) = true) ↔
        (findFirst matchAtName bothFieldsBigContent = none ∨
         findFirst matchAtCode bothFieldsBigContent = none)) := by decide

/-- C8, amended: parsing fails exactly when the versionName field has no
match, the versionCode field has no match, or the first versionCode
capture denotes a value above `2^31 - 1`; on success it returns the
captures of the first match of each field (the name capture, and the
numeric value of the code capture). -/
theorem C8_amended_parse (content : List Char) :
    (isErr (getVersionsFromFile content) = true ↔
      (findFirst matchAtName content = none ∨ findFirst matchAtCode content = none ∨
       ∃ pc, findFirst matchAtCode content = some pc ∧ digitVal pc.2.capture > int32Max)) ∧
    (∀ v, getVersionsFromFile content = .ok v →
      ∃ pn pc, findFirst matchAtName content = some pn ∧
        findFirst matchAtCode content = some pc ∧
        v.Name = pn.2.capture ∧ v.Code = (digitVal pc.2.capture : Int)) := by
  unfold getVersionsFromFile
  split
  · next hn =>
    constructor
    · simp [isErr, hn]
    · intro v hv
      exact absurd hv (by simp)
  · next pn hn =>
    split
    · next hc =>
      constructor
      · simp [isErr, hn, hc]
      · intro v hv
        exact absurd hv (by simp)
    · next pc hc =>
      split
      · next hle =>
        constructor
        · simp only [isErr, Bool.false_eq_true, false_iff]
          push_neg
          refine ⟨by simp [hn], by simp [hc], ?_⟩
          intro pc' hpc'
          rw [hc] at hpc'
          simp only [Option.some.injEq] at hpc'
          subst hpc'
          omega
        · intro v hv
          simp only [Except.ok.injEq] at hv
          exact ⟨pn, pc, hn, hc, by rw [← hv], by rw [← hv]⟩
      · next hle =>
        constructor
        · simp only [isErr, true_iff]
          exact Or.inr (Or.inr ⟨pc, hc, by omega⟩)
        · intro v hv
          exact absurd hv (by simp)

/-- Demonstration file content for a successful parse. -/
def demoContent : List Char := "versionCode 7\nversionName \"1.0.0\"\n".toList

/-- Witness for the amended C8 at a concrete well-formed content. -/
theorem C8_amended_witness :
    ∃ pn pc, findFirst matchAtName demoContent = some pn ∧
      findFirst matchAtCode demoContent = some pc ∧
      (Versions.mk 7 ("1.0.0".toList)).Name = pn.2.capture ∧
      (Versions.mk 7 ("1.0.0".toList)).Code = (digitVal pc.2.capture : Int) :=
  (C8_amended_parse demoContent).2 ⟨7, "1.0.0".toList⟩ rfl

/-! ### Claim C9: the write/read round trip -/

/-- Demonstration file content for the round-trip counterexample. -/
def roundTripContent : List Char := "versionName \"1.0\" versionCode 3".toList

/-- C9, counterexample: the empty version name consists only of digits
and dots (vacuously) and the code 0 is a non-negative 32-bit value, and
both fields match in `roundTripContent`; yet writing that pair produces
`versionName ""`, which the pattern (one or more value characters) no
longer matches, so reading back errs rather than returning the pair. -/
theorem C9_counterexample :
    (findFirst matchAtName roundTripContent).isSome = true ∧
    (findFirst matchAtCode roundTripContent).isSome = true ∧
    (∀ ch ∈ ([] : List Char), isNameChar ch = true) ∧
    (0 : Int) ≤ 0 ∧ (0 : Int) ≤ (int32Max : Int) ∧
    isErr (getVersionsFromFile (setVersionsToFile roundTripContent ⟨0, []⟩)) = true := by
  refine ⟨by decide, by decide, by simp, by decide, by decide, by decide⟩

/-! ### Character-class facts used by the round-trip development -/

theorem option_some_bind {α β : Type} (a : α) (f : α → Option β) : (some a).bind f = f a := rfl

theorem notv_isWS {c : Char} (h : isWS c = true) : c ≠ 'v' := by
  intro hv
  subst hv
  exact absurd h (by decide)

theorem notv_isDigit {c : Char} (h : isDigit c = true) : c ≠ 'v' := by
  intro hv
  subst hv
  exact absurd h (by decide)

theorem notv_isNameChar {c : Char} (h : isNameChar c = true) : c ≠ 'v' := by
  intro hv
  subst hv
  exact absurd h (by decide)

theorem notWS_isDigit {c : Char} (h : isDigit c = true) : isWS c = false := by
  by_contra hws
  rw [Bool.not_eq_false] at hws
  have h1 : c = ' ' ∨ c = '\t' ∨ c = '\n' ∨ c = '\x0c' ∨ c = '\r' := by
    simpa [isWS, or_assoc] using hws
  rcases h1 with rfl | rfl | rfl | rfl | rfl <;> exact absurd h (by decide)

theorem takeWhile_append_all {p : Char → Bool} {a : List Char} (b : List Char)
    (ha : ∀ c ∈ a, p c = true) :
    (a ++ b).takeWhile p = a ++ b.takeWhile p ∧ (a ++ b).dropWhile p = b.dropWhile p := by
  induction a with
  | nil => simp
  | cons x a' ih =>
    have hx : p x = true := ha x (by simp)
    have ih' := ih (fun c hc => ha c (by simp [hc]))
    simp [List.takeWhile_cons, List.dropWhile_cons, hx, ih'.1, ih'.2]

/-- Any text of the right shape is a versionName match, whatever
follows: the closing quote seals the greedy runs. -/
theorem matchAtName_build {ws nm : List Char} (t : List Char) (hws : ws ≠ [])
    (hwsc : ∀ c ∈ ws, isWS c = true) (hnm : nm ≠ []) (hnmc : ∀ c ∈ nm, isNameChar c = true) :
    matchAtName ((litName ++ ws ++ '"' :: (nm ++ ['"'])) ++ t)
      = some ⟨litName ++ ws ++ '"' :: (nm ++ ['"']), nm, t⟩ := by
  have hstrip : stripLit litName ((litName ++ ws ++ '"' :: (nm ++ ['"'])) ++ t)
      = some (ws ++ '"' :: (nm ++ ('"' :: t))) := by
    have : (litName ++ ws ++ '"' :: (nm ++ ['"'])) ++ t
        = litName ++ (ws ++ '"' :: (nm ++ ('"' :: t))) := by simp
    rw [this, stripLit_self]
  have hws2 : (ws ++ '"' :: (nm ++ '"' :: t)).takeWhile isWS = ws ∧
      (ws ++ '"' :: (nm ++ '"' :: t)).dropWhile isWS = '"' :: (nm ++ '"' :: t) :=
    takeWhile_all_append hwsc
      (by intro c hc; simp only [List.head?_cons, Option.some.injEq] at hc; subst hc; decide)
  have hnm2 : (nm ++ '"' :: t).takeWhile isNameChar = nm ∧
      (nm ++ '"' :: t).dropWhile isNameChar = '"' :: t :=
    takeWhile_all_append hnmc
      (by intro c hc; simp only [List.head?_cons, Option.some.injEq] at hc; subst hc; decide)
  unfold matchAtName
  rw [hstrip, option_some_bind]
  rw [hws2.1, hws2.2, if_neg hws]
  rw [show expectQuote ('"' :: (nm ++ '"' :: t)) = some (nm ++ '"' :: t) from rfl,
    option_some_bind]
  rw [hnm2.1, hnm2.2, if_neg hnm]
  rw [show expectQuote ('"' :: t) = some t from rfl]
  rfl

/-- Any text of the right shape starts a versionCode match, whatever
follows; the digit run extends into the continuation when it starts with
digits. -/
theorem matchAtCode_build_ext {ws ds : List Char} (t : List Char) (hws : ws ≠ [])
    (hwsc : ∀ c ∈ ws, isWS c = true) (hds : ds ≠ []) (hdsc : ∀ c ∈ ds, isDigit c = true) :
    matchAtCode ((litCode ++ ws ++ ds) ++ t)
      = some ⟨litCode ++ ws ++ (ds ++ t.takeWhile isDigit), ds ++ t.takeWhile isDigit,
          t.dropWhile isDigit⟩ := by
  have hstrip : stripLit litCode ((litCode ++ ws ++ ds) ++ t) = some (ws ++ (ds ++ t)) := by
    have : (litCode ++ ws ++ ds) ++ t = litCode ++ (ws ++ (ds ++ t)) := by simp
    rw [this, stripLit_self]
  have hdhead : ∀ c, (ds ++ t).head? = some c → isWS c = false := by
    intro c hc
    cases ds with
    | nil => exact absurd rfl hds
    | cons d ds' =>
      simp only [List.cons_append, List.head?_cons, Option.some.injEq] at hc
      subst hc
      exact notWS_isDigit (hdsc d (by simp))
  have hws2 : (ws ++ (ds ++ t)).takeWhile isWS = ws ∧
      (ws ++ (ds ++ t)).dropWhile isWS = ds ++ t :=
    takeWhile_all_append hwsc hdhead
  have hds2 := takeWhile_append_all t hdsc
  unfold matchAtCode
  rw [hstrip, option_some_bind]
  rw [hws2.1, hws2.2, if_neg hws]
  show (if (ds ++ t).takeWhile isDigit = [] then none
    else some (⟨litCode ++ ws ++ (ds ++ t).takeWhile isDigit, (ds ++ t).takeWhile isDigit,
      (ds ++ t).dropWhile isDigit⟩ : MRes)) = _
  rw [hds2.1, hds2.2]
  rw [if_neg (by simp [hds])]

/-- When the continuation does not start with a digit, the versionCode
match is exactly the given block. -/
theorem matchAtCode_build {ws ds : List Char} (t : List Char) (hws : ws ≠ [])
    (hwsc : ∀ c ∈ ws, isWS c = true) (hds : ds ≠ []) (hdsc : ∀ c ∈ ds, isDigit c = true)
    (ht : ∀ c, t.head? = some c → isDigit c = false) :
    matchAtCode ((litCode ++ ws ++ ds) ++ t) = some ⟨litCode ++ ws ++ ds, ds, t⟩ := by
  have htw : t.takeWhile isDigit = [] ∧ t.dropWhile isDigit = t := by
    cases t with
    | nil => simp
    | cons c t' =>
      have := ht c rfl
      simp [List.takeWhile_cons, List.dropWhile_cons, this]
  rw [matchAtCode_build_ext t hws hwsc hds hdsc, htw.1, htw.2]
  simp

/-! ### Head characters and cross-pattern conflicts -/

/-- A versionName match starts with `v` and contains no further `v`. -/
theorem matchAtName_headv {s : List Char} {m : MRes} (h : matchAtName s = some m) :
    ∃ mt, m.matched = 'v' :: mt ∧ ∀ c ∈ mt, c ≠ 'v' := by
  obtain ⟨ws, nm, hmm, hcap, hd, hwsne, hwsc, hnmne, hnmc⟩ := matchAtName_shape h
  refine ⟨litName.tail ++ (ws ++ '"' :: (nm ++ ['"'])), ?_, ?_⟩
  · rw [hmm]
    rfl
  · intro c hc
    rcases List.mem_append.mp hc with h1 | h1
    · have h2 : c ∈ ['e', 'r', 's', 'i', 'o', 'n', 'N', 'a', 'm', 'e'] := h1
      simp only [List.mem_cons, List.mem_singleton, List.not_mem_nil, or_false] at h2
      rcases h2 with rfl | rfl | rfl | rfl | rfl | rfl | rfl | rfl | rfl | rfl <;> decide
    · rcases List.mem_append.mp h1 with h2 | h2
      · exact notv_isWS (hwsc c h2)
      · rcases List.mem_cons.mp h2 with rfl | h3
        · decide
        · rcases List.mem_append.mp h3 with h4 | h4
          · exact notv_isNameChar (hnmc c h4)
          · have : c = '"' := List.mem_singleton.mp h4
            subst this
            decide

/-- A versionCode match starts with `v` and contains no further `v`. -/
theorem matchAtCode_headv {s : List Char} {m : MRes} (h : matchAtCode s = some m) :
    ∃ mt, m.matched = 'v' :: mt ∧ ∀ c ∈ mt, c ≠ 'v' := by
  obtain ⟨ws, ds, hmm, hcap, hd, hwsne, hwsc, hdsne, hdsc, hbnd⟩ := matchAtCode_shape h
  refine ⟨litCode.tail ++ (ws ++ ds), ?_, ?_⟩
  · rw [hmm]
    rfl
  · intro c hc
    rcases List.mem_append.mp hc with h1 | h1
    · have h2 : c ∈ ['e', 'r', 's', 'i', 'o', 'n', 'C', 'o', 'd', 'e'] := h1
      simp only [List.mem_cons, List.mem_singleton, List.not_mem_nil, or_false] at h2
      rcases h2 with rfl | rfl | rfl | rfl | rfl | rfl | rfl | rfl | rfl | rfl <;> decide
    · rcases List.mem_append.mp h1 with h2 | h2
      · exact notv_isWS (hwsc c h2)
      · exact notv_isDigit (hdsc c h2)

/-- The versionCode pattern never matches at the start of text that
begins with the `versionName` literal. -/
theorem matchAtCode_on_litName (X : List Char) : matchAtCode (litName ++ X) = none := by
  have h : stripLit litCode (litName ++ X) = none := by
    simp [stripLit, litCode, litName]
  simp [matchAtCode, h]

/-- The versionName pattern never matches at the start of text that
begins with the `versionCode` literal. -/
theorem matchAtName_on_litCode (X : List Char) : matchAtName (litCode ++ X) = none := by
  have h : stripLit litName (litCode ++ X) = none := by
    simp [stripLit, litCode, litName]
  simp [matchAtName, h]

/-- A versionName match is fully self-contained: it still matches, with
the same capture, in front of any continuation. -/
theorem matchAtName_self {s : List Char} {m : MRes} (h : matchAtName s = some m) :
    ∀ t, matchAtName (m.matched ++ t) = some ⟨m.matched, m.capture, t⟩ := by
  obtain ⟨ws, nm, hmm, hcap, hd, hwsne, hwsc, hnmne, hnmc⟩ := matchAtName_shape h
  intro t
  rw [hmm, hcap]
  exact matchAtName_build t hwsne hwsc hnmne hnmc

/-- A versionCode match still begins a match in front of any
continuation (the digit run may extend into it). -/
theorem matchAtCode_selfext {s : List Char} {m : MRes} (h : matchAtCode s = some m) :
    ∀ t, ∃ m2, matchAtCode (m.matched ++ t) = some m2 := by
  obtain ⟨ws, ds, hmm, hcap, hd, hwsne, hwsc, hdsne, hdsc, hbnd⟩ := matchAtCode_shape h
  intro t
  rw [hmm]
  exact ⟨_, matchAtCode_build_ext t hwsne hwsc hdsne hdsc⟩

/-- A versionName match also always begins a match, trivially. -/
theorem matchAtName_selfext {s : List Char} {m : MRes} (h : matchAtName s = some m) :
    ∀ t, ∃ m2, matchAtName (m.matched ++ t) = some m2 :=
  fun t => ⟨_, matchAtName_self h t⟩

/-- A versionCode match keeps matching exactly in front of any
continuation that does not start with a digit. -/
theorem matchAtCode_self_bnd {s : List Char} {m : MRes} (h : matchAtCode s = some m) :
    ∀ t, (∀ c, t.head? = some c → isDigit c = false) →
      matchAtCode (m.matched ++ t) = some ⟨m.matched, m.capture, t⟩ := by
  obtain ⟨ws, ds, hmm, hcap, hd, hwsne, hwsc, hdsne, hdsc, hbnd⟩ := matchAtCode_shape h
  intro t ht
  rw [hmm, hcap]
  exact matchAtCode_build t hwsne hwsc hdsne hdsc ht

/-- The rest of a versionCode match never starts with a digit. -/
theorem matchAtCode_bnd {s : List Char} {m : MRes} (h : matchAtCode s = some m) :
    ∀ c, m.rest.head? = some c → isDigit c = false := by
  obtain ⟨ws, ds, hmm, hcap, hd, hwsne, hwsc, hdsne, hdsc, hbnd⟩ := matchAtCode_shape h
  exact hbnd

/-! ### Matches contained in a region, and where a first match can be -/

/-- No match of the pattern lies entirely inside `x`. -/
def NoFull (mAt : List Char → Option MRes) (x : List Char) : Prop :=
  ∀ u mm w cap t, x = u ++ mm ++ w → mAt (mm ++ t) = some ⟨mm, cap, t⟩ → False

theorem NoFull_sub {mAt : List Char → Option MRes} {x u y w : List Char}
    (h : NoFull mAt x) (hx : x = u ++ y ++ w) : NoFull mAt y := by
  intro u2 mm w2 cap t hy hm
  refine h (u ++ u2) mm (w2 ++ w) cap t ?_ hm
  rw [hx, hy]
  simp

/-- Splitting one append equation against another when the first part is
at least as long. -/
theorem append_overlap {α : Type} : ∀ {a c d e : List α}, a ++ c = d ++ e →
    d.length ≤ a.length → ∃ x, a = d ++ x ∧ e = x ++ c := by
  intro a c d e h hl
  induction d generalizing a with
  | nil => exact ⟨a, rfl, by simpa using h.symm⟩
  | cons dh dt ih =>
    cases a with
    | nil => simp at hl
    | cons ah at2 =>
      simp only [List.cons_append, List.cons.injEq] at h
      obtain ⟨h1, h2⟩ := h
      obtain ⟨x, hx1, hx2⟩ := ih h2 (by simpa using hl)
      refine ⟨x, ?_, hx2⟩
      rw [h1, hx1]
      rfl

/-- A suffix of `x ++ y` is a suffix of `y`, or is a nonempty suffix of
`x` followed by all of `y`. -/
theorem suffix_append_cases {α : Type} {u b x y : List α} (h : u ++ b = x ++ y) :
    (∃ k, y = k ++ b) ∨ (∃ b1, b = b1 ++ y ∧ b1 ≠ [] ∧ ∃ k, x = k ++ b1) := by
  by_cases hl : x.length ≤ u.length
  · obtain ⟨k, hk1, hk2⟩ := append_overlap h hl
    exact Or.inl ⟨k, hk2⟩
  · push_neg at hl
    obtain ⟨k, hk1, hk2⟩ := append_overlap h.symm (by omega)
    refine Or.inr ⟨k, hk2, ?_, u, hk1⟩
    intro hknil
    rw [hknil, List.append_nil] at hk1
    have := congrArg List.length hk1
    omega

theorem findFirst_none_suffix {mAt : List Char → Option MRes} :
    ∀ {s : List Char}, findFirst mAt s = none → ∀ u b, s = u ++ b → mAt b = none := by
  intro s
  induction s with
  | nil =>
    intro h u b hs
    have hb : b = [] := by
      rcases List.append_eq_nil.mp hs.symm with ⟨_, h2⟩
      exact h2
    subst hb
    cases hm : mAt [] with
    | none => rfl
    | some m => rw [findFirst, hm] at h; exact absurd h (by simp)
  | cons c t ih =>
    intro h u b hs
    cases hm : mAt (c :: t) with
    | some m => rw [findFirst, hm] at h; exact absurd h (by simp)
    | none =>
      have hft : findFirst mAt t = none := by
        rw [findFirst, hm] at h
        exact Option.map_eq_none'.mp h
      cases u with
      | nil =>
        simp only [List.nil_append] at hs
        rw [hs] at hm
        exact hm
      | cons x u2 =>
        simp only [List.cons_append, List.cons.injEq] at hs
        exact ih hft u2 b hs.2

/-- No match lies inside the text before a first match. -/
theorem findFirst_pre_noFull {mAt : List Char → Option MRes}
    (hdec : ∀ s m, mAt s = some m → s = m.matched ++ m.rest)
    (hne : ∀ s m, mAt s = some m → m.matched ≠ [])
    (hselfext : ∀ s m, mAt s = some m → ∀ t, ∃ m2, mAt (m.matched ++ t) = some m2)
    {s p : List Char} {m : MRes} (h : findFirst mAt s = some (p, m)) :
    NoFull mAt p := by
  intro u mm w cap t hp hm
  have hmmne : mm ≠ [] := hne _ _ hm
  have hbne : mm ++ w ≠ [] := by
    intro h2
    rcases List.append_eq_nil.mp h2 with ⟨h3, _⟩
    exact hmmne h3
  have hmin := findFirst_min hdec s p m h u (mm ++ w) (by rw [hp]; simp) hbne
  obtain ⟨m2, hm2⟩ := hselfext _ _ hm (w ++ (m.matched ++ m.rest))
  have hm2b : mAt (mm ++ (w ++ (m.matched ++ m.rest))) = some m2 := hm2
  have heq : mm ++ (w ++ (m.matched ++ m.rest)) = (mm ++ w) ++ (m.matched ++ m.rest) := by
    simp
  rw [heq, hmin] at hm2b
  exact Option.noConfusion hm2b

/-- If no match lies inside `x` and the pattern matches no suffix of `x`
followed by the rest of the string either, the first match is past `x`. -/
theorem findFirst_skip {mAt : List Char → Option MRes} :
    ∀ {x y : List Char}, (∀ u b, x = u ++ b → b ≠ [] → mAt (b ++ y) = none) →
      findFirst mAt (x ++ y) = (findFirst mAt y).map (fun p => (x ++ p.1, p.2)) := by
  intro x
  induction x with
  | nil =>
    intro y _
    cases hq : findFirst mAt y with
    | none => simp [hq]
    | some q => simp [hq]
  | cons c x2 ih =>
    intro y hx
    have hm : mAt ((c :: x2) ++ y) = none := hx [] (c :: x2) rfl (by simp)
    show findFirst mAt (c :: (x2 ++ y)) = _
    rw [findFirst]
    rw [show mAt (c :: (x2 ++ y)) = none from hm]
    rw [ih (fun u b hu hb => hx (c :: u) b (by rw [hu]; rfl) hb)]
    cases hq : findFirst mAt y with
    | none => simp [hq]
    | some q => simp [hq]

/-- No match can start inside `b` when no match lies fully inside `b` and
the continuation starts with `v`: a contained match is ruled out by
`NoFull`, and a match reaching into the continuation would have a `v`
after its head. -/
theorem mAt_none_before {mAt : List Char → Option MRes}
    (hdec : ∀ s m, mAt s = some m → s = m.matched ++ m.rest)
    (hheadv : ∀ s m, mAt s = some m → ∃ mt, m.matched = 'v' :: mt ∧ ∀ c ∈ mt, c ≠ 'v')
    {b y : List Char} (hb : b ≠ []) (hnf : NoFull mAt b) (hy : ∃ z, y = 'v' :: z) :
    mAt (b ++ y) = none := by
  cases hm : mAt (b ++ y) with
  | none => rfl
  | some m =>
    exfalso
    have hd := hdec _ _ hm
    by_cases hl : m.matched.length ≤ b.length
    · obtain ⟨b2, hb2, hrest⟩ := append_overlap hd hl
      refine hnf [] m.matched b2 m.capture m.rest (by rw [hb2]; rfl) ?_
      rw [← hd]
      exact hm
    · push_neg at hl
      obtain ⟨e, he1, he2⟩ := append_overlap hd.symm (by omega)
      obtain ⟨mt, hmt, hmtv⟩ := hheadv _ _ hm
      obtain ⟨z, hz⟩ := hy
      have hee : e ≠ [] := by
        intro henil
        rw [henil, List.append_nil] at he1
        have := congrArg List.length he1
        omega
      cases e with
      | nil => exact absurd rfl hee
      | cons eh e2 =>
        have heh : eh = 'v' := by
          rw [hz] at he2
          simp only [List.cons_append, List.cons.injEq] at he2
          exact he2.1.symm
        cases b with
        | nil => exact absurd rfl hb
        | cons bh b2 =>
          have hbm : bh :: (b2 ++ (eh :: e2)) = 'v' :: mt := by
            rw [← hmt, he1]
            rfl
          simp only [List.cons.injEq] at hbm
          have hmem : eh ∈ mt := by
            rw [← hbm.2]
            simp
          exact hmtv eh hmem (by rw [heh])

/-- When no match lies inside `a` and `y` itself starts a match, the
first match of `a ++ y` is exactly that match, right after `a`. -/
theorem findFirst_pinned {mAt : List Char → Option MRes}
    (hdec : ∀ s m, mAt s = some m → s = m.matched ++ m.rest)
    (hheadv : ∀ s m, mAt s = some m → ∃ mt, m.matched = 'v' :: mt ∧ ∀ c ∈ mt, c ≠ 'v')
    {a y : List Char} {m : MRes}
    (hnf : NoFull mAt a) (hmy : mAt y = some m) :
    findFirst mAt (a ++ y) = some (a, m) := by
  have hyv : ∃ z, y = 'v' :: z := by
    obtain ⟨mt, hmt, _⟩ := hheadv _ _ hmy
    have hd := hdec _ _ hmy
    exact ⟨mt ++ m.rest, by rw [hd, hmt]; rfl⟩
  have hnone : ∀ u b, a = u ++ b → b ≠ [] → mAt (b ++ y) = none := by
    intro u b hu hb
    exact mAt_none_before hdec hheadv hb
      (NoFull_sub hnf (show a = u ++ b ++ [] by rw [hu]; simp)) hyv
  rw [findFirst_skip hnone]
  cases hy2 : y with
  | nil =>
    exfalso
    rw [hy2] at hmy
    obtain ⟨mt, hmt, _⟩ := hheadv _ _ hmy
    have hd := hdec _ _ hmy
    rw [hmt] at hd
    simp at hd
  | cons c z =>
    rw [hy2] at hmy
    rw [findFirst, hmy]
    simp

theorem findFirst_none_noFull {mAt : List Char → Option MRes}
    (hselfext : ∀ s m, mAt s = some m → ∀ t, ∃ m2, mAt (m.matched ++ t) = some m2)
    {s : List Char} (h : findFirst mAt s = none) : NoFull mAt s := by
  intro u mm w cap t hs hm
  obtain ⟨m2, hm2⟩ := hselfext _ _ hm w
  have hm2b : mAt (mm ++ w) = some m2 := hm2
  have hnone := findFirst_none_suffix h u (mm ++ w) (by rw [hs]; simp)
  rw [hnone] at hm2b
  exact Option.noConfusion hm2b

/-- A match contained anywhere in `x` means the scan of `x` finds some
match. -/
theorem contained_findFirst_ne {mAt : List Char → Option MRes}
    (hselfext : ∀ s m, mAt s = some m → ∀ t, ∃ m2, mAt (m.matched ++ t) = some m2)
    {x u mm w t cap : List Char}
    (hx : x = u ++ mm ++ w) (hm : mAt (mm ++ t) = some ⟨mm, cap, t⟩) :
    findFirst mAt x ≠ none := by
  intro h
  exact findFirst_none_noFull hselfext h u mm w cap t hx hm

/-! ### replaceAll: fuel irrelevance and stepping -/

theorem matched_len_pos {mAt : List Char → Option MRes}
    (hne : ∀ s m, mAt s = some m → m.matched ≠ [])
    {s : List Char} {m : MRes} (h : mAt s = some m) : 1 ≤ m.matched.length := by
  have := hne _ _ h
  cases hmm : m.matched with
  | nil => exact absurd hmm this
  | cons c l => simp [hmm]

theorem findFirst_nil_none {mAt : List Char → Option MRes}
    (hdec : ∀ s m, mAt s = some m → s = m.matched ++ m.rest)
    (hne : ∀ s m, mAt s = some m → m.matched ≠ []) :
    findFirst mAt [] = none := by
  cases hm : mAt [] with
  | none => rw [findFirst, hm]
  | some m =>
    exfalso
    have hd := hdec _ _ hm
    have hp := matched_len_pos hne hm
    have := congrArg List.length hd
    simp at this
    omega

theorem replaceAllF_fuel {mAt : List Char → Option MRes} {repl : List Char}
    (hdec : ∀ s m, mAt s = some m → s = m.matched ++ m.rest)
    (hne : ∀ s m, mAt s = some m → m.matched ≠ []) :
    ∀ f1 f2 s, s.length ≤ f1 → s.length ≤ f2 →
      replaceAllF mAt repl f1 s = replaceAllF mAt repl f2 s := by
  intro f1
  induction f1 with
  | zero =>
    intro f2 s h1 h2
    have hs : s = [] := List.length_eq_zero.mp (by omega)
    subst hs
    cases f2 with
    | zero => rfl
    | succ f2 => simp [replaceAllF, findFirst_nil_none hdec hne]
  | succ f1 ih =>
    intro f2 s h1 h2
    cases f2 with
    | zero =>
      have hs : s = [] := List.length_eq_zero.mp (by omega)
      subst hs
      simp [replaceAllF, findFirst_nil_none hdec hne]
    | succ f2 =>
      cases hf : findFirst mAt s with
      | none => simp [replaceAllF, hf]
      | some q =>
        obtain ⟨p, m⟩ := q
        obtain ⟨hds, hmat⟩ := findFirst_decomp hdec s p m hf
        have hp := matched_len_pos hne hmat
        have hlen := congrArg List.length hds
        simp only [List.length_append] at hlen
        simp only [replaceAllF, hf]
        rw [ih f2 m.rest (by omega) (by omega)]

theorem replaceAll_none {mAt : List Char → Option MRes} {repl s : List Char}
    (hf : findFirst mAt s = none) : replaceAll mAt repl s = s := by
  unfold replaceAll
  cases hl : s.length with
  | zero => rfl
  | succ n => simp [replaceAllF, hf]

theorem replaceAll_step {mAt : List Char → Option MRes} {repl : List Char}
    (hdec : ∀ s m, mAt s = some m → s = m.matched ++ m.rest)
    (hne : ∀ s m, mAt s = some m → m.matched ≠ [])
    {s p : List Char} {m : MRes} (hf : findFirst mAt s = some (p, m)) :
    replaceAll mAt repl s = p ++ repl ++ replaceAll mAt repl m.rest := by
  unfold replaceAll
  obtain ⟨hds, hmat⟩ := findFirst_decomp hdec s p m hf
  have hp := matched_len_pos hne hmat
  have hlen := congrArg List.length hds
  simp only [List.length_append] at hlen
  cases hsl : s.length with
  | zero => omega
  | succ n =>
    simp only [replaceAllF, hf]
    rw [replaceAllF_fuel hdec hne n m.rest.length m.rest (by omega) le_rfl]

/-! ### The pattern-property bundles in the form the generic lemmas use -/

theorem code_decomp : ∀ s m, matchAtCode s = some m → s = m.matched ++ m.rest :=
  fun _ _ h => matchAtCode_decomp h

theorem code_ne : ∀ s m, matchAtCode s = some m → m.matched ≠ [] :=
  fun _ _ h => matchAtCode_ne h

theorem code_selfext :
    ∀ s m, matchAtCode s = some m → ∀ t, ∃ m2, matchAtCode (m.matched ++ t) = some m2 :=
  fun _ _ h => matchAtCode_selfext h

theorem code_headv :
    ∀ s m, matchAtCode s = some m → ∃ mt, m.matched = 'v' :: mt ∧ ∀ c ∈ mt, c ≠ 'v' :=
  fun _ _ h => matchAtCode_headv h

theorem name_decomp : ∀ s m, matchAtName s = some m → s = m.matched ++ m.rest :=
  fun _ _ h => matchAtName_decomp h

theorem name_ne : ∀ s m, matchAtName s = some m → m.matched ≠ [] :=
  fun _ _ h => matchAtName_ne h

theorem name_selfext :
    ∀ s m, matchAtName s = some m → ∀ t, ∃ m2, matchAtName (m.matched ++ t) = some m2 :=
  fun _ _ h => matchAtName_selfext h

theorem name_headv :
    ∀ s m, matchAtName s = some m → ∃ mt, m.matched = 'v' :: mt ∧ ∀ c ∈ mt, c ≠ 'v' :=
  fun _ _ h => matchAtName_headv h

/-! ### The versionCode pass distributes over a protected block -/

/-- No versionCode match starts at or inside the block `r`, nor inside
text before it, so the versionCode scan of `a ++ r ++ t` skips to `t`
when `a` itself has no match. -/
theorem code_skip_block {r : List Char}
    (hrv : ∃ rt, r = 'v' :: rt ∧ ∀ c ∈ rt, c ≠ 'v')
    (hrq : ∀ z, matchAtCode (r ++ z) = none)
    {a t : List Char} (hfa : findFirst matchAtCode a = none) :
    ∀ u b, a ++ r = u ++ b → b ≠ [] → matchAtCode (b ++ t) = none := by
  obtain ⟨rt, hr, hrtv⟩ := hrv
  have hnfa : NoFull matchAtCode a := findFirst_none_noFull code_selfext hfa
  intro u b hu hb
  rcases suffix_append_cases hu.symm with ⟨k, hk⟩ | ⟨b1, hb1, hb1ne, k, hk⟩
  · cases k with
    | nil =>
      simp only [List.nil_append] at hk
      rw [← hk]
      exact hrq t
    | cons kh k2 =>
      cases hm : matchAtCode (b ++ t) with
      | none => rfl
      | some m =>
        exfalso
        obtain ⟨mt, hmt, _⟩ := matchAtCode_headv hm
        have hd := matchAtCode_decomp hm
        cases hbk : b with
        | nil => exact hb hbk
        | cons c b2 =>
          have hbh : c = 'v' := by
            rw [hbk, hmt] at hd
            simp only [List.cons_append, List.cons.injEq] at hd
            exact hd.1
          have hcin : c ∈ rt := by
            rw [hr, hbk] at hk
            simp only [List.cons_append, List.cons.injEq] at hk
            rw [hk.2]
            simp
          exact hrtv c hcin hbh
  · have hnone : matchAtCode (b1 ++ (r ++ t)) = none :=
      mAt_none_before code_decomp code_headv hb1ne
        (NoFull_sub hnfa (show a = k ++ b1 ++ [] by rw [hk]; simp))
        ⟨rt ++ t, by rw [hr]; rfl⟩
    rw [hb1]
    simpa using hnone

/-- When `a` has no versionCode match, the versionCode pass leaves
`a ++ r` alone and continues in `t`. -/
theorem replaceAllCode_split_none {repl r : List Char}
    (hrv : ∃ rt, r = 'v' :: rt ∧ ∀ c ∈ rt, c ≠ 'v')
    (hrq : ∀ z, matchAtCode (r ++ z) = none)
    {a t : List Char} (hfa : findFirst matchAtCode a = none) :
    replaceAll matchAtCode repl (a ++ r ++ t)
      = a ++ r ++ replaceAll matchAtCode repl t := by
  have hskip := code_skip_block hrv hrq hfa (t := t)
  cases hft : findFirst matchAtCode t with
  | none =>
    have h1 : findFirst matchAtCode ((a ++ r) ++ t) = none := by
      rw [findFirst_skip hskip, hft]
      rfl
    rw [replaceAll_none h1, replaceAll_none hft]
  | some q =>
    obtain ⟨pt, mt2⟩ := q
    have h1 : findFirst matchAtCode ((a ++ r) ++ t) = some ((a ++ r) ++ pt, mt2) := by
      rw [findFirst_skip hskip, hft]
      rfl
    rw [replaceAll_step code_decomp code_ne h1,
      replaceAll_step code_decomp code_ne hft]
    simp

/-- The versionCode pass distributes over a protected block `r`: no
match crosses into or out of `r`, so replacing in `a ++ r ++ t` replaces
in `a` and in `t` separately. -/
theorem replaceAllCode_split {repl r : List Char}
    (hrv : ∃ rt, r = 'v' :: rt ∧ ∀ c ∈ rt, c ≠ 'v')
    (hrq : ∀ z, matchAtCode (r ++ z) = none) :
    ∀ n a t, a.length ≤ n →
      replaceAll matchAtCode repl (a ++ r ++ t)
        = replaceAll matchAtCode repl a ++ r ++ replaceAll matchAtCode repl t := by
  intro n
  induction n with
  | zero =>
    intro a t h
    have ha : a = [] := List.length_eq_zero.mp (by omega)
    subst ha
    rw [replaceAllCode_split_none hrv hrq (findFirst_nil_none code_decomp code_ne),
      replaceAll_none (findFirst_nil_none code_decomp code_ne)]
  | succ n ih =>
    intro a t h
    cases hfa : findFirst matchAtCode a with
    | none => rw [replaceAllCode_split_none hrv hrq hfa, replaceAll_none hfa]
    | some q =>
      obtain ⟨pa, ma⟩ := q
      obtain ⟨hda, hmata⟩ := findFirst_decomp code_decomp a pa ma hfa
      have hnfpa : NoFull matchAtCode pa :=
        findFirst_pre_noFull code_decomp code_ne code_selfext hfa
      obtain ⟨rt, hrc, hrtv⟩ := hrv
      have hbd : ∀ c, (ma.rest ++ (r ++ t)).head? = some c → isDigit c = false := by
        intro c hc
        cases hmr : ma.rest with
        | nil =>
          rw [hmr] at hc
          simp only [List.nil_append] at hc
          rw [hrc] at hc
          simp only [List.cons_append, List.head?_cons, Option.some.injEq] at hc
          subst hc
          decide
        | cons mc mrest =>
          rw [hmr] at hc
          simp only [List.cons_append, List.head?_cons, Option.some.injEq] at hc
          subst hc
          exact matchAtCode_bnd hmata mc (by rw [hmr]; rfl)
      have hmy : matchAtCode (ma.matched ++ (ma.rest ++ (r ++ t)))
          = some ⟨ma.matched, ma.capture, ma.rest ++ (r ++ t)⟩ :=
        matchAtCode_self_bnd hmata _ hbd
      have hfc : findFirst matchAtCode (a ++ (r ++ t))
          = some (pa, ⟨ma.matched, ma.capture, ma.rest ++ (r ++ t)⟩) := by
        rw [show a ++ (r ++ t) = pa ++ (ma.matched ++ (ma.rest ++ (r ++ t))) by
          rw [hda]; simp]
        exact findFirst_pinned code_decomp code_headv hnfpa hmy
      have hlen := congrArg List.length hda
      have hp := matched_len_pos code_ne hmata
      simp only [List.length_append] at hlen
      have hrec := ih ma.rest t (by omega)
      rw [show a ++ r ++ t = a ++ (r ++ t) by simp,
        replaceAll_step code_decomp code_ne hfc,
        replaceAll_step code_decomp code_ne hfa]
      show pa ++ repl ++ replaceAll matchAtCode repl (ma.rest ++ (r ++ t)) = _
      rw [show ma.rest ++ (r ++ t) = ma.rest ++ r ++ t by simp, hrec]
      simp

/-- A match of a pattern that can match neither at the block `blk` nor
across its `v`-boundaries lies entirely before the block or entirely
after it. -/
theorem match_avoid_block {mAt : List Char → Option MRes} {blk x y pc : List Char} {mc : MRes}
    (hblkv : ∃ bt, blk = 'v' :: bt ∧ ∀ c ∈ bt, c ≠ 'v')
    (hblkconf : ∀ z, mAt (blk ++ z) = none)
    (hcv : ∃ mt, mc.matched = 'v' :: mt ∧ ∀ c ∈ mt, c ≠ 'v')
    (hself : mAt (mc.matched ++ mc.rest) = some mc)
    (heq : x ++ (blk ++ y) = pc ++ (mc.matched ++ mc.rest)) :
    (∃ u w, x = u ++ mc.matched ++ w) ∨ (∃ u w, y = u ++ mc.matched ++ w) := by
  obtain ⟨bt, hblk, hbtv⟩ := hblkv
  obtain ⟨mt, hmt, hmtv⟩ := hcv
  by_cases h1 : pc.length + mc.matched.length ≤ x.length
  · have heq1 : x ++ (blk ++ y) = (pc ++ mc.matched) ++ mc.rest := by rw [heq]; simp
    obtain ⟨w, hw1, hw2⟩ := append_overlap heq1 (by simp only [List.length_append]; omega)
    exact Or.inl ⟨pc, w, by rw [hw1]⟩
  by_cases h5 : x.length + blk.length ≤ pc.length
  · have heq5 : pc ++ (mc.matched ++ mc.rest) = (x ++ blk) ++ y := by rw [← heq]; simp
    obtain ⟨k, hk1, hk2⟩ := append_overlap heq5 (by simp only [List.length_append]; omega)
    exact Or.inr ⟨k, mc.rest, by rw [hk2]; simp⟩
  push_neg at h1 h5
  exfalso
  by_cases h2 : pc.length < x.length
  · -- the match starts in x and reaches into blk
    obtain ⟨k, hk1, hk2⟩ := append_overlap heq (by omega)
    have hklen := congrArg List.length hk1
    simp only [List.length_append] at hklen
    have hkl : k.length < mc.matched.length := by omega
    obtain ⟨e, he1, he2⟩ := append_overlap hk2 (by omega)
    have hene := congrArg List.length he1
    simp only [List.length_append] at hene
    cases e with
    | nil => simp at hene; omega
    | cons eh e2 =>
      have heh : eh = 'v' := by
        rw [hblk] at he2
        simp only [List.cons_append, List.cons.injEq] at he2
        exact he2.1.symm
      cases k with
      | nil => simp at hklen; omega
      | cons kh k2 =>
        have hmm : kh :: (k2 ++ (eh :: e2)) = 'v' :: mt := by
          rw [← hmt, he1]
          rfl
        simp only [List.cons.injEq] at hmm
        refine hmtv eh ?_ (by rw [heh])
        rw [← hmm.2]
        simp
  · -- the match starts at or inside blk
    push_neg at h2
    obtain ⟨k, hk1, hk2⟩ := append_overlap heq.symm h2
    cases k with
    | nil =>
      simp only [List.nil_append] at hk2
      rw [← hk2] at hself
      exact Option.noConfusion ((hblkconf y).symm.trans hself)
    | cons kh k2 =>
      have hklen := congrArg List.length hk1
      simp only [List.length_append, List.length_cons] at hklen
      obtain ⟨e3, he1, he2⟩ := append_overlap hk2 (by simp only [List.length_cons]; omega)
      have he3len := congrArg List.length he1
      simp only [List.length_append] at he3len
      cases e3 with
      | nil => simp at he3len; omega
      | cons e3h e4 =>
        have he3h : e3h = 'v' := by
          rw [hmt] at he2
          simp only [List.cons_append, List.cons.injEq] at he2
          exact he2.1.symm
        have hbm : kh :: (k2 ++ (e3h :: e4)) = 'v' :: bt := by
          rw [← hblk, he1]
          rfl
        simp only [List.cons.injEq] at hbm
        refine hbtv e3h ?_ (by rw [he3h])
        rw [← hbm.2]
        simp

/-- Appending a block that cannot interact with versionName matches, in
between two regions without full versionName matches, yields a region
without full versionName matches. -/
theorem noFullName_append_block {pa S B : List Char}
    (hpa : NoFull matchAtName pa) (hB : NoFull matchAtName B)
    (hSv : ∃ st, S = 'v' :: st ∧ ∀ c ∈ st, c ≠ 'v')
    (hSconf : ∀ z, matchAtName (S ++ z) = none) :
    NoFull matchAtName (pa ++ (S ++ B)) := by
  intro u mm w cap t hx hm
  have hm2 : matchAtName (mm ++ w) = some ⟨mm, cap, w⟩ := matchAtName_self hm w
  have heq : pa ++ (S ++ B) = u ++ (mm ++ w) := by rw [hx]; simp
  have hres := match_avoid_block hSv hSconf (matchAtName_headv hm2) hm2 heq
  rcases hres with ⟨u2, w2, hdecomp⟩ | ⟨u2, w2, hdecomp⟩
  · exact hpa u2 mm w2 cap w hdecomp hm2
  · exact hB u2 mm w2 cap w hdecomp hm2

/-- The versionCode replacement pass cannot create a versionName match:
regions without full versionName matches stay that way. -/
theorem replaceAllCode_preserves_noFullName {S : List Char}
    (hSv : ∃ st, S = 'v' :: st ∧ ∀ c ∈ st, c ≠ 'v')
    (hSconf : ∀ z, matchAtName (S ++ z) = none) :
    ∀ n x, x.length ≤ n → NoFull matchAtName x →
      NoFull matchAtName (replaceAll matchAtCode S x) := by
  intro n
  induction n with
  | zero =>
    intro x h hnf
    have hx : x = [] := List.length_eq_zero.mp (by omega)
    subst hx
    rw [replaceAll_none (findFirst_nil_none code_decomp code_ne)]
    exact hnf
  | succ n ih =>
    intro x h hnf
    cases hf : findFirst matchAtCode x with
    | none => rw [replaceAll_none hf]; exact hnf
    | some q =>
      obtain ⟨pa, ma⟩ := q
      obtain ⟨hdx, hmatx⟩ := findFirst_decomp code_decomp x pa ma hf
      rw [replaceAll_step code_decomp code_ne hf]
      have hlen := congrArg List.length hdx
      simp only [List.length_append] at hlen
      have hp := matched_len_pos code_ne hmatx
      have hnfpa : NoFull matchAtName pa :=
        NoFull_sub hnf (show x = [] ++ pa ++ (ma.matched ++ ma.rest) by rw [hdx]; simp)
      have hnfrest : NoFull matchAtName ma.rest :=
        NoFull_sub hnf (show x = (pa ++ ma.matched) ++ ma.rest ++ [] by rw [hdx]; simp)
      have hrec := ih ma.rest (by omega) hnfrest
      have hout := noFullName_append_block hnfpa hrec hSv hSconf
      have heqq : pa ++ S ++ replaceAll matchAtCode S ma.rest
          = pa ++ (S ++ replaceAll matchAtCode S ma.rest) := by simp
      rw [heqq]
      exact hout

/-- The versionCode pass preserves a non-digit head: either the head is
kept, or it becomes the `v` of the replacement. -/
theorem replaceAllCode_head_bnd {S : List Char} (hSh : ∃ z, S = 'v' :: z) :
    ∀ x, (∀ c, x.head? = some c → isDigit c = false) →
      ∀ c, (replaceAll matchAtCode S x).head? = some c → isDigit c = false := by
  intro x hx c hc
  cases hf : findFirst matchAtCode x with
  | none => rw [replaceAll_none hf] at hc; exact hx c hc
  | some q =>
    obtain ⟨pa, ma⟩ := q
    rw [replaceAll_step code_decomp code_ne hf] at hc
    obtain ⟨hdx, _⟩ := findFirst_decomp code_decomp x pa ma hf
    cases hpa : pa with
    | nil =>
      obtain ⟨z, hS⟩ := hSh
      rw [hpa] at hc
      simp only [List.nil_append] at hc
      rw [hS] at hc
      simp only [List.cons_append, List.head?_cons, Option.some.injEq] at hc
      subst hc
      decide
    | cons p1 p2 =>
      rw [hpa] at hc
      simp only [List.cons_append, List.head?_cons, Option.some.injEq] at hc
      subst hc
      apply hx
      rw [hdx, hpa]
      rfl

/-- A versionCode match in the text survives the versionName replacement
pass: the pass only rewrites versionName matches, which a versionCode
match cannot overlap. -/
theorem code_match_survives {R : List Char} :
    ∀ n t0, t0.length ≤ n → findFirst matchAtCode t0 ≠ none →
      findFirst matchAtCode (replaceAll matchAtName R t0) ≠ none := by
  intro n
  induction n with
  | zero =>
    intro t0 h hcm
    have ht : t0 = [] := List.length_eq_zero.mp (by omega)
    subst ht
    rw [replaceAll_none (findFirst_nil_none name_decomp name_ne)]
    exact hcm
  | succ n ih =>
    intro t0 h hcm
    cases hfn : findFirst matchAtName t0 with
    | none => rw [replaceAll_none hfn]; exact hcm
    | some q =>
      obtain ⟨pn, mn⟩ := q
      obtain ⟨hdn, hmatn⟩ := findFirst_decomp name_decomp t0 pn mn hfn
      rw [replaceAll_step name_decomp name_ne hfn]
      cases hfc : findFirst matchAtCode t0 with
      | none => exact absurd hfc hcm
      | some qc =>
        obtain ⟨pc, mc⟩ := qc
        obtain ⟨hdc, hmatc⟩ := findFirst_decomp code_decomp t0 pc mc hfc
        have hblkconf : ∀ z, matchAtCode (mn.matched ++ z) = none := by
          intro z
          obtain ⟨ws, nm, hmm, _⟩ := matchAtName_shape hmatn
          rw [hmm,
            show (litName ++ ws ++ '"' :: (nm ++ ['"'])) ++ z
              = litName ++ (ws ++ ('"' :: (nm ++ ['"']) ++ z)) by simp]
          exact matchAtCode_on_litName _
        have heq : pn ++ (mn.matched ++ mn.rest) = pc ++ (mc.matched ++ mc.rest) := by
          rw [show pn ++ (mn.matched ++ mn.rest) = pn ++ mn.matched ++ mn.rest by simp,
            ← hdn, hdc]
          simp
        have hres := match_avoid_block (matchAtName_headv hmatn) hblkconf
          (matchAtCode_headv hmatc) hmatc heq
        rcases hres with ⟨u2, w2, hdecomp⟩ | ⟨u2, w2, hdecomp⟩
        · refine contained_findFirst_ne code_selfext
            (show pn ++ R ++ replaceAll matchAtName R mn.rest
              = u2 ++ mc.matched ++ (w2 ++ R ++ replaceAll matchAtName R mn.rest) from ?_)
            hmatc
          rw [show u2 ++ mc.matched ++ (w2 ++ R ++ replaceAll matchAtName R mn.rest)
              = (u2 ++ mc.matched ++ w2) ++ R ++ replaceAll matchAtName R mn.rest by simp,
            ← hdecomp]
        · have hrestne : findFirst matchAtCode mn.rest ≠ none :=
            contained_findFirst_ne code_selfext hdecomp hmatc
          have hlen := congrArg List.length hdn
          simp only [List.length_append] at hlen
          have hp := matched_len_pos name_ne hmatn
          have hrec := ih mn.rest (by omega) hrestne
          cases hfr : findFirst matchAtCode (replaceAll matchAtName R mn.rest) with
          | none => exact absurd hfr hrec
          | some qr =>
            obtain ⟨pr, mr⟩ := qr
            obtain ⟨hdr, hmatr⟩ := findFirst_decomp code_decomp _ pr mr hfr
            refine contained_findFirst_ne code_selfext
              (show pn ++ R ++ replaceAll matchAtName R mn.rest
                = (pn ++ R ++ pr) ++ mr.matched ++ mr.rest from ?_) hmatr
            rw [show (pn ++ R ++ pr) ++ mr.matched ++ mr.rest
                = pn ++ R ++ (pr ++ mr.matched ++ mr.rest) by simp, ← hdr]

/-- C9, amended: round-trip.  For every file content in which both
fields match, and every version pair whose name is a nonempty string of
digits and dots and whose code is a non-negative integer fitting in
signed 32 bits, `getVersionsFromFile` applied to the result of
`setVersionsToFile` with that pair returns exactly that pair. -/
theorem C9_amended_roundtrip (content name : List Char) (code : Int)
    (hfn : findFirst matchAtName content ≠ none)
    (hfc : findFirst matchAtCode content ≠ none)
    (hnne : name ≠ []) (hnc : ∀ c ∈ name, isNameChar c = true)
    (hge : 0 ≤ code) (hle : code.toNat ≤ int32Max) :
    getVersionsFromFile (setVersionsToFile content ⟨code, name⟩)
      = Except.ok ⟨code, name⟩ := by
  have hcodalt : intToDigits code = natToDigits code.toNat := by
    rw [intToDigits, if_neg (by omega)]
  obtain ⟨hdne, hdall, hdval⟩ := natToDigits_spec code.toNat
  have hR : replName name = litName ++ [' '] ++ '"' :: (name ++ ['"']) := by
    simp [replName]
  have hmR : ∀ t, matchAtName (replName name ++ t) = some ⟨replName name, name, t⟩ := by
    intro t
    rw [hR]
    exact matchAtName_build t (by decide) (by decide) hnne hnc
  have hrv : ∃ rt, replName name = 'v' :: rt ∧ ∀ c ∈ rt, c ≠ 'v' :=
    matchAtName_headv (hmR [])
  have hrq : ∀ z, matchAtCode (replName name ++ z) = none := by
    intro z
    rw [show replName name ++ z = litName ++ (' ' :: '"' :: (name ++ ['"']) ++ z) by
      simp [replName]]
    exact matchAtCode_on_litName _
  have hS : replCode code = litCode ++ [' '] ++ natToDigits code.toNat := by
    simp [replCode, hcodalt]
  have hmS : ∀ t, (∀ c, t.head? = some c → isDigit c = false) →
      matchAtCode (replCode code ++ t)
        = some ⟨replCode code, natToDigits code.toNat, t⟩ := by
    intro t ht
    rw [hS]
    exact matchAtCode_build t (by decide) (by decide) hdne hdall ht
  have hSv : ∃ st, replCode code = 'v' :: st ∧ ∀ c ∈ st, c ≠ 'v' :=
    matchAtCode_headv (hmS [] (by intro c hc; simp at hc))
  have hSconf : ∀ z, matchAtName (replCode code ++ z) = none := by
    intro z
    rw [show replCode code ++ z = litCode ++ (' ' :: intToDigits code ++ z) by
      simp [replCode]]
    exact matchAtName_on_litCode _
  cases hfn0 : findFirst matchAtName content with
  | none => exact absurd hfn0 hfn
  | some qn =>
    obtain ⟨u0, mN⟩ := qn
    obtain ⟨hdN, hmatN⟩ := findFirst_decomp name_decomp content u0 mN hfn0
    have hbody1 : replaceAll matchAtName (replName name) content
        = u0 ++ replName name ++ replaceAll matchAtName (replName name) mN.rest :=
      replaceAll_step name_decomp name_ne hfn0
    have hbody2 : setVersionsToFile content ⟨code, name⟩
        = replaceAll matchAtCode (replCode code) u0 ++ replName name
          ++ replaceAll matchAtCode (replCode code)
              (replaceAll matchAtName (replName name) mN.rest) := by
      show replaceAll matchAtCode (replCode code)
          (replaceAll matchAtName (replName name) content) = _
      rw [hbody1]
      exact replaceAllCode_split hrv hrq u0.length u0 _ le_rfl
    have hnfU0 : NoFull matchAtName u0 :=
      findFirst_pre_noFull name_decomp name_ne name_selfext hfn0
    have hnfA : NoFull matchAtName (replaceAll matchAtCode (replCode code) u0) :=
      replaceAllCode_preserves_noFullName hSv hSconf u0.length u0 le_rfl hnfU0
    have hfnbody : findFirst matchAtName (setVersionsToFile content ⟨code, name⟩)
        = some (replaceAll matchAtCode (replCode code) u0,
            ⟨replName name, name, replaceAll matchAtCode (replCode code)
              (replaceAll matchAtName (replName name) mN.rest)⟩) := by
      rw [hbody2,
        show replaceAll matchAtCode (replCode code) u0 ++ replName name
            ++ replaceAll matchAtCode (replCode code)
                (replaceAll matchAtName (replName name) mN.rest)
          = replaceAll matchAtCode (replCode code) u0
            ++ (replName name ++ replaceAll matchAtCode (replCode code)
                  (replaceAll matchAtName (replName name) mN.rest)) by simp]
      exact findFirst_pinned name_decomp name_headv hnfA (hmR _)
    cases hfcu : findFirst matchAtCode u0 with
    | some q0 =>
      obtain ⟨p0, m0⟩ := q0
      obtain ⟨hd0, hmat0⟩ := findFirst_decomp code_decomp u0 p0 m0 hfcu
      have hA : replaceAll matchAtCode (replCode code) u0
          = p0 ++ replCode code ++ replaceAll matchAtCode (replCode code) m0.rest :=
        replaceAll_step code_decomp code_ne hfcu
      have hrest2 : ∀ c, (replaceAll matchAtCode (replCode code) m0.rest
          ++ (replName name ++ replaceAll matchAtCode (replCode code)
                (replaceAll matchAtName (replName name) mN.rest))).head? = some c →
          isDigit c = false := by
        intro c hc
        cases hA2 : replaceAll matchAtCode (replCode code) m0.rest with
        | nil =>
          rw [hA2] at hc
          simp only [List.nil_append] at hc
          obtain ⟨rt, hrc, _⟩ := hrv
          rw [hrc] at hc
          simp only [List.cons_append, List.head?_cons, Option.some.injEq] at hc
          subst hc
          decide
        | cons a1 a2 =>
          rw [hA2] at hc
          simp only [List.cons_append, List.head?_cons, Option.some.injEq] at hc
          subst hc
          obtain ⟨st, hSc, _⟩ := hSv
          exact replaceAllCode_head_bnd ⟨st, hSc⟩ m0.rest (matchAtCode_bnd hmat0) a1
            (by rw [hA2]; rfl)
      have hmS0 : matchAtCode (replCode code
            ++ (replaceAll matchAtCode (replCode code) m0.rest
              ++ (replName name ++ replaceAll matchAtCode (replCode code)
                    (replaceAll matchAtName (replName name) mN.rest))))
          = some ⟨replCode code, natToDigits code.toNat,
              replaceAll matchAtCode (replCode code) m0.rest
                ++ (replName name ++ replaceAll matchAtCode (replCode code)
                      (replaceAll matchAtName (replName name) mN.rest))⟩ :=
        hmS _ hrest2
      have hnfp0 : NoFull matchAtCode p0 :=
        findFirst_pre_noFull code_decomp code_ne code_selfext hfcu
      have hfcbody : findFirst matchAtCode (setVersionsToFile content ⟨code, name⟩)
          = some (p0, ⟨replCode code, natToDigits code.toNat,
              replaceAll matchAtCode (replCode code) m0.rest
                ++ (replName name ++ replaceAll matchAtCode (replCode code)
                      (replaceAll matchAtName (replName name) mN.rest))⟩) := by
        rw [hbody2, hA,
          show p0 ++ replCode code ++ replaceAll matchAtCode (replCode code) m0.rest
                ++ replName name ++ replaceAll matchAtCode (replCode code)
                    (replaceAll matchAtName (replName name) mN.rest)
            = p0 ++ (replCode code
                ++ (replaceAll matchAtCode (replCode code) m0.rest
                  ++ (replName name ++ replaceAll matchAtCode (replCode code)
                        (replaceAll matchAtName (replName name) mN.rest)))) by simp]
        exact findFirst_pinned code_decomp code_headv hnfp0 hmS0
      unfold getVersionsFromFile
      rw [hfnbody, hfcbody]
      show (if digitVal (natToDigits code.toNat) ≤ int32Max then
            (Except.ok ⟨(digitVal (natToDigits code.toNat) : Int), name⟩
              : Except String Versions)
          else Except.error "value out of range") = Except.ok ⟨code, name⟩
      rw [hdval, if_pos hle, Int.toNat_of_nonneg hge]
    | none =>
      have hAu0 : replaceAll matchAtCode (replCode code) u0 = u0 := replaceAll_none hfcu
      cases hfc0 : findFirst matchAtCode content with
      | none => exact absurd hfc0 hfc
      | some qc =>
        obtain ⟨pc, mc⟩ := qc
        obtain ⟨hdc, hmatc⟩ := findFirst_decomp code_decomp content pc mc hfc0
        have hblkconf : ∀ z, matchAtCode (mN.matched ++ z) = none := by
          intro z
          obtain ⟨ws, nm, hmm, _⟩ := matchAtName_shape hmatN
          rw [hmm,
            show (litName ++ ws ++ '"' :: (nm ++ ['"'])) ++ z
              = litName ++ (ws ++ ('"' :: (nm ++ ['"']) ++ z)) by simp]
          exact matchAtCode_on_litName _
        have heqc : u0 ++ (mN.matched ++ mN.rest) = pc ++ (mc.matched ++ mc.rest) := by
          rw [show u0 ++ (mN.matched ++ mN.rest) = u0 ++ mN.matched ++ mN.rest by simp,
            ← hdN, hdc]
          simp
        have hres := match_avoid_block (matchAtName_headv hmatN) hblkconf
          (matchAtCode_headv hmatc) hmatc heqc
        have hrestne : findFirst matchAtCode mN.rest ≠ none := by
          rcases hres with ⟨u2, w2, hdecomp⟩ | ⟨u2, w2, hdecomp⟩
          · exact absurd hmatc
              (by have := findFirst_none_noFull code_selfext hfcu u2 mc.matched w2
                    mc.capture mc.rest hdecomp
                  intro hcon
                  exact this hcon)
          · exact contained_findFirst_ne code_selfext hdecomp hmatc
        have hTne : findFirst matchAtCode
            (replaceAll matchAtName (replName name) mN.rest) ≠ none :=
          code_match_survives mN.rest.length mN.rest le_rfl hrestne
        cases hfT : findFirst matchAtCode (replaceAll matchAtName (replName name) mN.rest) with
        | none => exact absurd hfT hTne
        | some qT =>
          obtain ⟨pT, mT⟩ := qT
          obtain ⟨hdT, hmatT⟩ := findFirst_decomp code_decomp _ pT mT hfT
          have hB : replaceAll matchAtCode (replCode code)
                (replaceAll matchAtName (replName name) mN.rest)
              = pT ++ replCode code ++ replaceAll matchAtCode (replCode code) mT.rest :=
            replaceAll_step code_decomp code_ne hfT
          have hrestT : ∀ c, (replaceAll matchAtCode (replCode code) mT.rest).head? = some c →
              isDigit c = false := by
            obtain ⟨st, hSc, _⟩ := hSv
            exact replaceAllCode_head_bnd ⟨st, hSc⟩ mT.rest (matchAtCode_bnd hmatT)
          have hmST : matchAtCode (replCode code
                ++ replaceAll matchAtCode (replCode code) mT.rest)
              = some ⟨replCode code, natToDigits code.toNat,
                  replaceAll matchAtCode (replCode code) mT.rest⟩ :=
            hmS _ hrestT
          have hnfpT : NoFull matchAtCode pT :=
            findFirst_pre_noFull code_decomp code_ne code_selfext hfT
          have hfBT : findFirst matchAtCode (replaceAll matchAtCode (replCode code)
                (replaceAll matchAtName (replName name) mN.rest))
              = some (pT, ⟨replCode code, natToDigits code.toNat,
                  replaceAll matchAtCode (replCode code) mT.rest⟩) := by
            rw [hB,
              show pT ++ replCode code ++ replaceAll matchAtCode (replCode code) mT.rest
                = pT ++ (replCode code ++ replaceAll matchAtCode (replCode code) mT.rest)
                by simp]
            exact findFirst_pinned code_decomp code_headv hnfpT hmST
          have hfcbody : findFirst matchAtCode (setVersionsToFile content ⟨code, name⟩)
              = some (u0 ++ replName name ++ pT,
                  ⟨replCode code, natToDigits code.toNat,
                    replaceAll matchAtCode (replCode code) mT.rest⟩) := by
            rw [hbody2, hAu0, findFirst_skip (code_skip_block hrv hrq hfcu), hfBT]
            rfl
          unfold getVersionsFromFile
          rw [hfnbody, hfcbody]
          show (if digitVal (natToDigits code.toNat) ≤ int32Max then
                (Except.ok ⟨(digitVal (natToDigits code.toNat) : Int), name⟩
                  : Except String Versions)
              else Except.error "value out of range") = Except.ok ⟨code, name⟩
          rw [hdval, if_pos hle, Int.toNat_of_nonneg hge]

/-- C9 witness: at the concrete content and pair the hypotheses hold and
the round trip returns the pair. -/
theorem C9_amended_witness :
    findFirst matchAtName roundTripContent ≠ none ∧
    findFirst matchAtCode roundTripContent ≠ none ∧
    getVersionsFromFile (setVersionsToFile roundTripContent ⟨(7 : Int), ['2', '.', '3']⟩)
      = Except.ok ⟨(7 : Int), ['2', '.', '3']⟩ :=
  by
  refine ⟨by decide, by decide,
    C9_amended_roundtrip roundTripContent ['2', '.', '3'] 7 ?_ ?_ ?_ ?_ ?_ ?_⟩
  all_goals decide

end BumpAndroid
